import Mathlib

/-!
Shallow embedding of `scripts/build_antlr_js.py` (ANTLR build pipeline for the
Spark SQL grammar, JavaScript target) and proofs about the claims of its
specification.

Strings are modelled as `List Char`; Python regular-expression character
classes (`\w`, `\s`) are modelled over ASCII, which is the alphabet of the
grammar and generated-artifact files the script operates on.  Each of the
script's `re.sub` passes is embedded as a deterministic left-to-right scan
with an explicit matcher mirroring the regex (all the regexes involved are
backtracking-free on their alphabet, so the scan is exactly the Python
semantics: leftmost match, continue after the match's end).
-/

namespace BuildAntlrJs

/-- ASCII model of the Python regex class `\w` (= `[A-Za-z0-9_]`). -/
def isWordChar (c : Char) : Bool := c.isAlpha || c.isDigit || c == '_'

/-- ASCII model of the Python regex class `\s` and of the default character
set of `str.rstrip` (space, tab, newline, carriage return, vertical tab,
form feed). -/
def isPyWs (c : Char) : Bool :=
  c == ' ' || c == '\t' || c == '\n' || c == '\r' || c == '\x0b' || c == '\x0c'

/-- The four characters skipped by `remove_block` after a removed region
(the literal set `' \t\n\r'` at line 88 of the script). -/
def isTrailWs (c : Char) : Bool := c == ' ' || c == '\t' || c == '\n' || c == '\r'

/-- Match a literal list of characters as a prefix of `s`, returning the
remainder on success. -/
def stripLit : List Char → List Char → Option (List Char)
  | [], s => some s
  | _ :: _, [] => none
  | l :: ls, c :: cs => if l == c then stripLit ls cs else none

/-! ## The Call Rewriter: `transform_predicates_for_js`

A matcher consumes a match at the head of the input, returning
`(consumed, replacement, rest)` with input `= consumed ++ rest`. -/

abbrev Matcher := List Char → Option (List Char × List Char × List Char)

/-- Literal body of the first special idiom: `tags.push(getText())`. -/
def lit1 : List Char := "tags.push(getText())".toList

/-- Literal body of the second special idiom: `getText().equals(tags.peek())`. -/
def lit2 : List Char := "getText().equals(tags.peek())".toList

/-- Literal body of the third special idiom: `tags.pop()`. -/
def lit3 : List Char := "tags.pop()".toList

/-- Replacement for the push idiom. -/
def rep1 : List Char := "\x7bthis.pushDollarTag();\x7d".toList

/-- Replacement for the peek-compare idiom. -/
def rep2 : List Char := "\x7bthis.matchesDollarTag()\x7d?".toList

/-- Replacement for the pop idiom. -/
def rep3 : List Char := "\x7bthis.popDollarTag();\x7d".toList

/-- The characters `this.` inserted by the generic rewrite rules. -/
def thisStr : List Char := "this.".toList

/-- Matcher for `re.sub(r'\{tags\.push\(getText\(\)\);?\}', ...)`. -/
def m1 : Matcher := fun s =>
  match s with
  | '{' :: r =>
    match stripLit lit1 r with
    | some (';' :: '}' :: t) => some ('{' :: lit1 ++ [';', '}'], rep1, t)
    | some ('}' :: t) => some ('{' :: lit1 ++ ['}'], rep1, t)
    | _ => none
  | _ => none

/-- Matcher for `re.sub(r'\{getText\(\)\.equals\(tags\.peek\(\)\)\}\?', ...)`. -/
def m2 : Matcher := fun s =>
  match s with
  | '{' :: r =>
    match stripLit lit2 r with
    | some ('}' :: '?' :: t) => some ('{' :: lit2 ++ ['}', '?'], rep2, t)
    | _ => none
  | _ => none

/-- Matcher for `re.sub(r'\{tags\.pop\(\);?\}', ...)`. -/
def m3 : Matcher := fun s =>
  match s with
  | '{' :: r =>
    match stripLit lit3 r with
    | some (';' :: '}' :: t) => some ('{' :: lit3 ++ [';', '}'], rep3, t)
    | some ('}' :: t) => some ('{' :: lit3 ++ ['}'], rep3, t)
    | _ => none
  | _ => none

/-- Shared core of the predicate-call rule `\{(!?)(\w+)\(\)\}(\?)?`:
after `{` and the optional `!` (already split off into `neg`), take the
maximal `\w+` run, then require `()}` and an optional trailing `?`. -/
def m4core (neg r1 : List Char) : Option (List Char × List Char × List Char) :=
  match r1.takeWhile isWordChar with
  | [] => none
  | n :: ns =>
    match r1.dropWhile isWordChar with
    | '(' :: ')' :: '}' :: '?' :: t =>
      some ('{' :: neg ++ (n :: ns) ++ ['(', ')', '}', '?'],
            '{' :: neg ++ thisStr ++ (n :: ns) ++ ['(', ')', '}', '?'], t)
    | '(' :: ')' :: '}' :: t =>
      some ('{' :: neg ++ (n :: ns) ++ ['(', ')', '}'],
            '{' :: neg ++ thisStr ++ (n :: ns) ++ ['(', ')', '}'], t)
    | _ => none

/-- Matcher for `re.sub(r'\{(!?)(\w+)\(\)\}(\?)?', ...)` (predicate calls,
with the trailing `?` optional as in the source regex). -/
def m4 : Matcher := fun s =>
  match s with
  | '{' :: '!' :: r1 => m4core ['!'] r1
  | '{' :: r1 => m4core [] r1
  | _ => none

/-- Matcher for `re.sub(r'\{(\w+)\(\);\}', ...)` (action calls). -/
def m5 : Matcher := fun s =>
  match s with
  | '{' :: r1 =>
    match r1.takeWhile isWordChar with
    | [] => none
    | n :: ns =>
      match r1.dropWhile isWordChar with
      | '(' :: ')' :: ';' :: '}' :: t =>
        some ('{' :: (n :: ns) ++ ['(', ')', ';', '}'],
              '{' :: thisStr ++ (n :: ns) ++ ['(', ')', ';', '}'], t)
      | _ => none
  | _ => none

/-- Shared core of the variable-access rule `\{(!?)([a-zA-Z][a-zA-Z_0-9]*)\}(\?)`:
after `{` and the optional `!`, require an alphabetic character, take the
maximal word run after it, then require `}` and a mandatory `?`. -/
def m6core (neg r1 : List Char) : Option (List Char × List Char × List Char) :=
  match r1 with
  | c :: cs =>
    if c.isAlpha then
      match cs.dropWhile isWordChar with
      | '}' :: '?' :: t =>
        some ('{' :: neg ++ (c :: cs.takeWhile isWordChar) ++ ['}', '?'],
              '{' :: neg ++ thisStr ++ (c :: cs.takeWhile isWordChar) ++ ['}', '?'], t)
      | _ => none
    else none
  | [] => none

/-- Matcher for `re.sub(r'\{(!?)([a-zA-Z][a-zA-Z_0-9]*)\}(\?)', ...)`
(state-variable reads used as predicates). -/
def m6 : Matcher := fun s =>
  match s with
  | '{' :: '!' :: r1 => m6core ['!'] r1
  | '{' :: r1 => m6core [] r1
  | _ => none

/-- Fuel-driven left-to-right substitution scan: at each position try the
matcher; on a match emit the replacement and continue after the match,
otherwise copy one character.  With fuel `≥` the input length this is
exactly Python's `re.sub` for the matchers above (none of which can match
the empty string). -/
def substF (m : Matcher) : Nat → List Char → List Char
  | _, [] => []
  | 0, s => s
  | f + 1, x :: xs =>
    match m (x :: xs) with
    | some (_, r, t) => r ++ substF m f t
    | none => x :: substF m f xs

/-- One whole `re.sub` pass. -/
def subst (m : Matcher) (s : List Char) : List Char := substF m s.length s

/-- `transform_predicates_for_js` on character lists: the six `re.sub`
passes of the source, in source order. -/
def transformList (s : List Char) : List Char :=
  subst m6 (subst m5 (subst m4 (subst m3 (subst m2 (subst m1 s)))))

/-- The Call Rewriter `transform_predicates_for_js` from the script. -/
def transform_predicates_for_js (content : String) : String :=
  (transformList content.toList).asString

/-! ## The Block Stripper: `remove_block` -/

/-- After the literal `@<tag>` has been consumed: skip the `\s*` run and
require the opening brace, returning the text after it. -/
def openMatchTail (r2 : List Char) : Option (List Char) :=
  match r2.dropWhile isPyWs with
  | '{' :: r4 => some r4
  | _ => none

/-- Match the region-open pattern `@<tag>\s*\{` at the head of the input,
returning the text after the opening brace. -/
def openMatch (tag : List Char) : List Char → Option (List Char) := fun s =>
  match s with
  | '@' :: r =>
    match stripLit tag r with
    | some r2 => openMatchTail r2
    | none => none
  | _ => none

/-- Scan forward tracking brace depth (starting at the given depth),
returning the text after the brace that closes the region; consumes to the
end of the document if the braces never close. -/
def skipBrace : Nat → List Char → List Char
  | _, [] => []
  | d, c :: rest =>
    if c = '{' then skipBrace (d + 1) rest
    else if c = '}' then (if d = 1 then rest else skipBrace (d - 1) rest)
    else skipBrace d rest

/-- Fuel-driven scan of `remove_block`: copy characters until the open
pattern matches; then skip to the matching close brace and drop the
whitespace immediately following. -/
def removeBlockF (tag : List Char) : Nat → List Char → List Char
  | _, [] => []
  | 0, s => s
  | f + 1, c :: rest =>
    match openMatch tag (c :: rest) with
    | some after => removeBlockF tag f ((skipBrace 1 after).dropWhile isTrailWs)
    | none => c :: removeBlockF tag f rest

/-- `remove_block` on character lists. -/
def removeBlockList (content tag : List Char) : List Char :=
  removeBlockF tag content.length content

/-- The Block Stripper `remove_block` from the script. -/
def remove_block (content block_name : String) : String :=
  (removeBlockList content.toList block_name.toList).asString

/-! ## The Predicate Injection Stage and the Coverage Verifier -/

/-- Python's `str.rstrip()` (default whitespace set): remove all trailing
whitespace characters. -/
def pyRstrip (s : List Char) : List Char := (s.reverse.dropWhile isPyWs).reverse

/-- Segment 0 of the lexer implementation block (text between definitions). -/
def lexJsChunk0 : String := "\n\n// ======================================\x3d=====================================\n// Lexer Predicate Implementations (from Java @members)\n// Based on sparkfmt-core/KNOWN_PREDICATES.json\n// ======================================\x3d=====================================\n\n// State\n"

/-- Segment 1 of the lexer implementation block (the definition of `has_unclosed_bracketed_comment`). -/
def lexJsChunk1 : String := "SqlBaseLexer.prototype.has_unclosed_bracketed_comment ="

/-- Segment 2 of the lexer implementation block (text between definitions). -/
def lexJsChunk2 : String := " false;\n"

/-- Segment 3 of the lexer implementation block (the definition of `complex_type_level_counter`). -/
def lexJsChunk3 : String := "SqlBaseLexer.prototype.complex_type_level_counter ="

/-- Segment 4 of the lexer implementation block (text between definitions). -/
def lexJsChunk4 : String := " 0;\n"

/-- Segment 5 of the lexer implementation block (the definition of `dollar_tags`). -/
def lexJsChunk5 : String := "SqlBaseLexer.prototype.dollar_tags ="

/-- Segment 6 of the lexer implementation block (text between definitions). -/
def lexJsChunk6 : String := " [];\n\n/**\n * Check if current token forms a valid decimal number.\n * Returns false if followed by letter/digit/underscore (would be part of identifier).\n */\n"

/-- Segment 7 of the lexer implementation block (the definition of `isValidDecimal`). -/
def lexJsChunk7 : String := "SqlBaseLexer.prototype.isValidDecimal ="

/-- Segment 8 of the lexer implementation block (text between definitions). -/
def lexJsChunk8 : String := " function() \x7b\n    const nextChar = this._input.LA(1);\n    // Check if next char is A-Z, a-z, 0-9, or _\n    if ((nextChar >= 65 && nextChar <= 90) ||   // A-Z\n        (nextChar >= 97 && nextChar <= 122) ||  // a-z\n        (nextChar >= 48 && nextChar <= 57) ||   // 0-9\n        nextChar === 95) \x7b                       // _\n        return false;\n    \x7d\n    return true;\n\x7d;\n\n/**\n * Check if block comment is a query hint (starts with +).\n * Hints look like: /--+ BROADCAST(t) --/  (using /*+ in actual SQL)\n */\n"

/-- Segment 9 of the lexer implementation block (the definition of `isHint`). -/
def lexJsChunk9 : String := "SqlBaseLexer.prototype.isHint ="

/-- Segment 10 of the lexer implementation block (text between definitions). -/
def lexJsChunk10 : String := " function() \x7b\n    return this._input.LA(1) === 43; // \x27+\x27\n\x7d;\n\n/**\n * Check if >> is shift operator vs nested generic closing.\n * Inside MAP<K, ARRAY<V>>, the >> should be two separate > tokens.\n */\n"

/-- Segment 11 of the lexer implementation block (the definition of `isShiftRightOperator`). -/
def lexJsChunk11 : String := "SqlBaseLexer.prototype.isShiftRightOperator ="

/-- Segment 12 of the lexer implementation block (text between definitions). -/
def lexJsChunk12 : String := " function() \x7b\n    return this.complex_type_level_counter === 0;\n\x7d;\n\n/**\n * Increment counter when entering complex type: MAP<, ARRAY<, STRUCT<\n */\n"

/-- Segment 13 of the lexer implementation block (the definition of `incComplexTypeLevelCounter`). -/
def lexJsChunk13 : String := "SqlBaseLexer.prototype.incComplexTypeLevelCounter ="

/-- Segment 14 of the lexer implementation block (text between definitions). -/
def lexJsChunk14 : String := " function() \x7b\n    this.complex_type_level_counter++;\n\x7d;\n\n/**\n * Decrement counter when > closes a complex type.\n */\n"

/-- Segment 15 of the lexer implementation block (the definition of `decComplexTypeLevelCounter`). -/
def lexJsChunk15 : String := "SqlBaseLexer.prototype.decComplexTypeLevelCounter ="

/-- Segment 16 of the lexer implementation block (text between definitions). -/
def lexJsChunk16 : String := " function() \x7b\n    if (this.complex_type_level_counter > 0) \x7b\n        this.complex_type_level_counter--;\n    \x7d\n\x7d;\n\n/**\n * Mark that an unclosed block comment was encountered (for error reporting).\n */\n"

/-- Segment 17 of the lexer implementation block (the definition of `markUnclosedComment`). -/
def lexJsChunk17 : String := "SqlBaseLexer.prototype.markUnclosedComment ="

/-- Segment 18 of the lexer implementation block (text between definitions). -/
def lexJsChunk18 : String := " function() \x7b\n    this.has_unclosed_bracketed_comment = true;\n\x7d;\n\n/**\n * Push dollar-quoted string tag onto stack.\n * For $tag$content$tag$, pushes \"tag\".\n */\n"

/-- Segment 19 of the lexer implementation block (the definition of `pushDollarTag`). -/
def lexJsChunk19 : String := "SqlBaseLexer.prototype.pushDollarTag ="

/-- Segment 20 of the lexer implementation block (text between definitions). -/
def lexJsChunk20 : String := " function() \x7b\n    this.dollar_tags.push(this.getText());\n\x7d;\n\n/**\n * Pop dollar-quoted string tag from stack.\n */\n"

/-- Segment 21 of the lexer implementation block (the definition of `popDollarTag`). -/
def lexJsChunk21 : String := "SqlBaseLexer.prototype.popDollarTag ="

/-- Segment 22 of the lexer implementation block (text between definitions). -/
def lexJsChunk22 : String := " function() \x7b\n    if (this.dollar_tags.length > 0) \x7b\n        this.dollar_tags.pop();\n    \x7d\n\x7d;\n\n/**\n * Check if current text matches tag on top of stack.\n */\n"

/-- Segment 23 of the lexer implementation block (the definition of `matchesDollarTag`). -/
def lexJsChunk23 : String := "SqlBaseLexer.prototype.matchesDollarTag ="

/-- Segment 24 of the lexer implementation block (text between definitions). -/
def lexJsChunk24 : String := " function() \x7b\n    if (this.dollar_tags.length === 0) return false;\n    return this.getText() === this.dollar_tags[this.dollar_tags.length - 1];\n\x7d;\n"

/-- The fixed lexer implementation block appended by `add_predicate_implementations`: byte-for-byte the `lexer_predicates_js` literal of the script, split at the boundaries of the matches of the verifier's definition regex. -/
def lexer_predicates_js : String :=
  lexJsChunk0 ++ (lexJsChunk1 ++ (lexJsChunk2 ++ (lexJsChunk3 ++ (lexJsChunk4 ++ (lexJsChunk5 ++ (lexJsChunk6 ++ (lexJsChunk7 ++ (lexJsChunk8 ++ (lexJsChunk9 ++ (lexJsChunk10 ++ (lexJsChunk11 ++ (lexJsChunk12 ++ (lexJsChunk13 ++ (lexJsChunk14 ++ (lexJsChunk15 ++ (lexJsChunk16 ++ (lexJsChunk17 ++ (lexJsChunk18 ++ (lexJsChunk19 ++ (lexJsChunk20 ++ (lexJsChunk21 ++ (lexJsChunk22 ++ (lexJsChunk23 ++ (lexJsChunk24))))))))))))))))))))))))

/-- Segment 0 of the parser implementation block (text between definitions). -/
def parJsChunk0 : String := "\n\n// ======================================\x3d=====================================\n// Parser Predicate Implementations (from Java @members)\n// Based on sparkfmt-core/KNOWN_PREDICATES.json\n// ======================================\x3d=====================================\n\n// Configuration flags (can be set before parsing to change behavior)\n"

/-- Segment 1 of the parser implementation block (the definition of `legacy_setops_precedence_enabled`). -/
def parJsChunk1 : String := "SqlBaseParser.prototype.legacy_setops_precedence_enabled ="

/-- Segment 2 of the parser implementation block (text between definitions). -/
def parJsChunk2 : String := " false;\n"

/-- Segment 3 of the parser implementation block (the definition of `legacy_exponent_literal_as_decimal_enabled`). -/
def parJsChunk3 : String := "SqlBaseParser.prototype.legacy_exponent_literal_as_decimal_enabled ="

/-- Segment 4 of the parser implementation block (text between definitions). -/
def parJsChunk4 : String := " false;\n"

/-- Segment 5 of the parser implementation block (the definition of `SQL_standard_keyword_behavior`). -/
def parJsChunk5 : String := "SqlBaseParser.prototype.SQL_standard_keyword_behavior ="

/-- Segment 6 of the parser implementation block (text between definitions). -/
def parJsChunk6 : String := " false;\n"

/-- Segment 7 of the parser implementation block (the definition of `double_quoted_identifiers`). -/
def parJsChunk7 : String := "SqlBaseParser.prototype.double_quoted_identifiers ="

/-- Segment 8 of the parser implementation block (text between definitions). -/
def parJsChunk8 : String := " false;\n"

/-- Segment 9 of the parser implementation block (the definition of `parameter_substitution_enabled`). -/
def parJsChunk9 : String := "SqlBaseParser.prototype.parameter_substitution_enabled ="

/-- Segment 10 of the parser implementation block (text between definitions). -/
def parJsChunk10 : String := " true;\n"

/-- Segment 11 of the parser implementation block (the definition of `legacy_identifier_clause_only`). -/
def parJsChunk11 : String := "SqlBaseParser.prototype.legacy_identifier_clause_only ="

/-- Segment 12 of the parser implementation block (text between definitions). -/
def parJsChunk12 : String := " false;\n"

/-- Segment 13 of the parser implementation block (the definition of `single_character_pipe_operator_enabled`). -/
def parJsChunk13 : String := "SqlBaseParser.prototype.single_character_pipe_operator_enabled ="

/-- Segment 14 of the parser implementation block (text between definitions). -/
def parJsChunk14 : String := " true;\n\n/**\n * Check if |> pipe operator is starting.\n * Looks ahead to see if PIPE is followed by GT.\n */\n"

/-- Segment 15 of the parser implementation block (the definition of `isOperatorPipeStart`). -/
def parJsChunk15 : String := "SqlBaseParser.prototype.isOperatorPipeStart ="

/-- Segment 16 of the parser implementation block (text between definitions). -/
def parJsChunk16 : String := " function() \x7b\n    // Check if next token after PIPE is GT (>)\n    return this._input.LA(2) === SqlBaseParser.GT;\n\x7d;\n"

/-- The fixed parser implementation block appended by `add_predicate_implementations`: byte-for-byte the `parser_predicates_js` literal of the script, split at the boundaries of the matches of the verifier's definition regex. -/
def parser_predicates_js : String :=
  parJsChunk0 ++ (parJsChunk1 ++ (parJsChunk2 ++ (parJsChunk3 ++ (parJsChunk4 ++ (parJsChunk5 ++ (parJsChunk6 ++ (parJsChunk7 ++ (parJsChunk8 ++ (parJsChunk9 ++ (parJsChunk10 ++ (parJsChunk11 ++ (parJsChunk12 ++ (parJsChunk13 ++ (parJsChunk14 ++ (parJsChunk15 ++ (parJsChunk16))))))))))))))))

/-- The implementation names defined by the lexer block, in order of definition. -/
def lexBlockNames : List (List Char) :=
  ["has_unclosed_bracketed_comment".toList,
   "complex_type_level_counter".toList,
   "dollar_tags".toList,
   "isValidDecimal".toList,
   "isHint".toList,
   "isShiftRightOperator".toList,
   "incComplexTypeLevelCounter".toList,
   "decComplexTypeLevelCounter".toList,
   "markUnclosedComment".toList,
   "pushDollarTag".toList,
   "popDollarTag".toList,
   "matchesDollarTag".toList]

/-- The implementation names defined by the parser block, in order of definition. -/
def parBlockNames : List (List Char) :=
  ["legacy_setops_precedence_enabled".toList,
   "legacy_exponent_literal_as_decimal_enabled".toList,
   "SQL_standard_keyword_behavior".toList,
   "double_quoted_identifiers".toList,
   "parameter_substitution_enabled".toList,
   "legacy_identifier_clause_only".toList,
   "single_character_pipe_operator_enabled".toList,
   "isOperatorPipeStart".toList]


/-- Pure content transformation of the Predicate Injection Stage for the
lexer artifact: `content.rstrip() + lexer_predicates_js` (line 331 of the
script). -/
def injectLexerContent (content : String) : String :=
  (pyRstrip content.toList).asString ++ lexer_predicates_js

/-- Pure content transformation of the Predicate Injection Stage for the
parser artifact: `content.rstrip() + parser_predicates_js` (line 371 of the
script). -/
def injectParserContent (content : String) : String :=
  (pyRstrip content.toList).asString ++ parser_predicates_js

/-- The literal part of the lexer definition regex
`SqlBaseLexer\.prototype\.(\w+)\s*=`. -/
def litLexerProto : List Char := "SqlBaseLexer.prototype.".toList

/-- The literal part of the parser definition regex
`SqlBaseParser\.prototype\.(\w+)\s*=`. -/
def litParserProto : List Char := "SqlBaseParser.prototype.".toList

/-- After the literal has been consumed: capture the `\w+` run, skip the
`\s*` run and require `=`, returning the captured name and the text after
the `=`. -/
def defMatchTail (r : List Char) : Option (List Char × List Char) :=
  match r.takeWhile isWordChar with
  | [] => none
  | n :: ns =>
    match (r.dropWhile isWordChar).dropWhile isPyWs with
    | '=' :: t => some (n :: ns, t)
    | _ => none

/-- Try to match `<lit>(\w+)\s*=` at the head of the input, returning the
captured name and the text after the `=` (where `re.findall` resumes). -/
def defMatch (lit : List Char) (s : List Char) :
    Option (List Char × List Char) :=
  match stripLit lit s with
  | some r => defMatchTail r
  | none => none

/-- Fuel-driven scan of `re.findall(r'<lit>(\w+)\s*=', content)`:
leftmost, non-overlapping matches, each contributing its captured name. -/
def findDefsF (lit : List Char) : Nat → List Char → List (List Char)
  | _, [] => []
  | 0, _ => []
  | f + 1, c :: cs =>
    match defMatch lit (c :: cs) with
    | some (n, rest) => n :: findDefsF lit f rest
    | none => findDefsF lit f cs

/-- All captured names of the definition regex over a document. -/
def findDefs (lit s : List Char) : List (List Char) := findDefsF lit s.length s

/-- Python's substring test `lit in s`. -/
def isSubstr (lit : List Char) : List Char → Bool
  | [] => (stripLit lit []).isSome
  | c :: cs => (stripLit lit (c :: cs)).isSome || isSubstr lit cs

/-- The required lexer predicate names hard-coded in `verify_predicates`. -/
def requiredLexerPredicates : List String :=
  ["isValidDecimal", "isHint", "isShiftRightOperator",
   "incComplexTypeLevelCounter", "decComplexTypeLevelCounter",
   "markUnclosedComment", "pushDollarTag", "popDollarTag", "matchesDollarTag"]

/-- The required parser predicate names hard-coded in `verify_predicates`. -/
def requiredParserPredicates : List String :=
  ["isOperatorPipeStart"]

/-- The required parser configuration flags hard-coded in
`verify_predicates`. -/
def requiredParserFlags : List String :=
  ["legacy_setops_precedence_enabled", "legacy_exponent_literal_as_decimal_enabled",
   "SQL_standard_keyword_behavior", "double_quoted_identifiers",
   "parameter_substitution_enabled", "legacy_identifier_clause_only",
   "single_character_pipe_operator_enabled"]

/-- The content-level core of `verify_predicates`: extract implementation
names from both artifacts, compute the missing sets, succeed iff all three
are empty (the script returns `False` iff `issues` is nonempty, and an
issue is appended exactly when one of the three missing sets is
nonempty). -/
def verifyContent (lexer_content parser_content : String) : Bool :=
  let lexer_impls := findDefs litLexerProto lexer_content.toList
  let parser_impls := findDefs litParserProto parser_content.toList
  let missing_lexer :=
    requiredLexerPredicates.filter (fun n => !(lexer_impls.contains n.toList))
  let missingParser :=
    requiredParserPredicates.filter (fun n => !(parser_impls.contains n.toList))
  let missing_flags :=
    requiredParserFlags.filter
      (fun f => !(isSubstr ("prototype." ++ f).toList parser_content.toList))
  missing_lexer.isEmpty && missingParser.isEmpty && missing_flags.isEmpty

/-! ## Filesystem model and the pipeline stages

The script reads and writes files at fixed paths.  A filesystem state is an
association list from paths to file contents (later writes shadow earlier
entries).  A Python call that raises an uncaught exception is modelled as
`Except.error`. -/

/-- Filesystem state: association list from path to content. -/
abbrev FS := List (String × String)

/-- `Path.exists` / `Path.read_text`: look a path up. -/
def fsRead (fs : FS) (p : String) : Option String :=
  (fs.find? (fun e => e.1 == p)).map (fun e => e.2)

/-- `Path.write_text`: record a new content for a path. -/
def fsWrite (fs : FS) (p v : String) : FS := (p, v) :: fs

/-- Path of the source lexer grammar (`GRAMMAR_SOURCE_DIR`). -/
def srcLexerG4 : String := "grammar/SqlBaseLexer.g4"

/-- Path of the source parser grammar (`GRAMMAR_SOURCE_DIR`). -/
def srcParserG4 : String := "grammar/SqlBaseParser.g4"

/-- Path of the staged (transformed) lexer grammar
(`GRAMMAR_TRANSFORMED_DIR`). -/
def stagedLexerG4 : String := "poc-antlr4ts/grammar/SqlBaseLexer.g4"

/-- Path of the staged (transformed) parser grammar. -/
def stagedParserG4 : String := "poc-antlr4ts/grammar/SqlBaseParser.g4"

/-- Path of the generated lexer artifact (`GENERATED_DIR`). -/
def genLexerJs : String := "poc-antlr4ts/src/generated/SqlBaseLexer.js"

/-- Path of the generated parser artifact (`GENERATED_DIR`). -/
def genParserJs : String := "poc-antlr4ts/src/generated/SqlBaseParser.js"

/-- The per-file transformation applied by `transform_grammar`: strip the
`@header` and `@members` regions, then rewrite predicate/action calls. -/
def transformGrammarContent (content : String) : String :=
  transform_predicates_for_js (remove_block (remove_block content "header") "members")

/-- Stage 1, `transform_grammar`: for each of the two grammar files, if the
source file is absent report failure (`False`), otherwise write the
transformed text to the staging path.  The loop aborts at the first missing
file.  No code path raises. -/
def transform_grammar (fs : FS) : Except String (FS × Bool) :=
  match fsRead fs srcLexerG4 with
  | none => Except.ok (fs, false)
  | some c1 =>
    let fs1 := fsWrite fs stagedLexerG4 (transformGrammarContent c1)
    match fsRead fs1 srcParserG4 with
    | none => Except.ok (fs1, false)
    | some c2 =>
      Except.ok (fsWrite fs1 stagedParserG4 (transformGrammarContent c2), true)

/-- Stage 3, `add_predicate_implementations`: for each generated artifact,
if it is absent report failure (`False`, after an existence check), else
append the fixed implementation block to the right-stripped content.  No
code path raises. -/
def add_predicate_implementations (fs : FS) : Except String (FS × Bool) :=
  match fsRead fs genLexerJs with
  | none => Except.ok (fs, false)
  | some content =>
    let fs1 := fsWrite fs genLexerJs (injectLexerContent content)
    match fsRead fs1 genParserJs with
    | none => Except.ok (fs1, false)
    | some pcontent =>
      Except.ok (fsWrite fs1 genParserJs (injectParserContent pcontent), true)

/-- Stage 4, `verify_predicates`: reads both artifacts with `read_text`
WITHOUT an existence check (lines 409 and 421 of the script), so a missing
artifact raises `FileNotFoundError`; otherwise it returns the boolean
coverage outcome. -/
def verify_predicates (fs : FS) : Except String Bool :=
  match fsRead fs genLexerJs with
  | none => Except.error "FileNotFoundError: SqlBaseLexer.js"
  | some lexer_content =>
    match fsRead fs genParserJs with
    | none => Except.error "FileNotFoundError: SqlBaseParser.js"
    | some parser_content =>
      Except.ok (verifyContent lexer_content parser_content)

/-! ## The Pipeline Driver -/

/-- The step list of `main`, in source order. -/
def pipelineSteps : List String :=
  ["Transform grammar", "Generate JavaScript", "Add predicates", "Verify coverage"]

/-- The driver loop of `main` over an assignment of stage outcomes: run the
steps in order; at the first failing step stop and return exit code 1,
otherwise return 0.  The first component records which steps were invoked,
in order. -/
def runSteps (f : String → Bool) : List String → List String × Nat
  | [] => ([], 0)
  | n :: rest =>
    if f n then
      let r := runSteps f rest
      (n :: r.1, r.2)
    else ([n], 1)

/-- `main`: run the four pipeline steps with the given outcomes. -/
def mainDriver (f : String → Bool) : List String × Nat := runSteps f pipelineSteps

/-! ## Auxiliary predicates used by the theorems -/

/-- `true` iff the open pattern `@<tag>\s*\{` matches at some position of
the document. -/
def hasOpenB (tag : List Char) : List Char → Bool
  | [] => false
  | c :: cs => (openMatch tag (c :: cs)).isSome || hasOpenB tag cs

/-- `true` iff the open pattern matches at none of the first `k` positions
of the document. -/
def noOpenBefore (tag : List Char) : Nat → List Char → Bool
  | 0, _ => true
  | _ + 1, [] => true
  | k + 1, c :: cs => !(openMatch tag (c :: cs)).isSome && noOpenBefore tag k cs

/-- `true` iff scanning the region body from depth `d` stays strictly
positive throughout and ends exactly at depth 1 (so that one further `}`
closes the region). -/
def balB : Nat → List Char → Bool
  | d, [] => d == 1
  | d, c :: cs =>
    if c = '{' then balB (d + 1) cs
    else if c = '}' then decide (1 < d) && balB (d - 1) cs
    else balB d cs

/-- `true` iff scanning the region body from depth `d` never returns to
depth 0 (the braces never close). -/
def openB : Nat → List Char → Bool
  | _, [] => true
  | d, c :: cs =>
    if c = '{' then openB (d + 1) cs
    else if c = '}' then decide (1 < d) && openB (d - 1) cs
    else openB d cs

/-- One block occurrence of a grammar document: the clean text before it,
the whitespace between the tag and the opening brace, the brace-balanced
body, and the whitespace trailing the closing brace. -/
abbrev Seg := List Char × List Char × List Char × List Char

/-- Assemble a document from block occurrences and a final clean tail. -/
def assembleDoc (tag : List Char) : List Seg → List Char → List Char
  | [], tail => tail
  | (t, w0, b, w) :: rest, tail =>
    t ++ ('@' :: tag ++ w0 ++ '{' :: (b ++ '}' :: (w ++ assembleDoc tag rest tail)))

/-- The clean text of a document: everything outside its block regions. -/
def cleanParts (segs : List Seg) (tail : List Char) : List Char :=
  (segs.map (fun s => s.1)).flatten ++ tail

/-- `true` iff the document does not begin with one of the four whitespace
characters skipped after a removed region. -/
def headNotTrailWs : List Char → Bool
  | [] => true
  | c :: _ => !(isTrailWs c)

/-- Well-formedness of a document decomposition: each clean part contains
no occurrence of the open pattern (in its actual context), each `w0` is
regex whitespace, each body is brace-balanced, each trailing run is exactly
the maximal run of trailing whitespace, and the final tail is clean. -/
def SegsOKB (tag : List Char) : List Seg → List Char → Bool
  | [], tail => !(hasOpenB tag tail)
  | (t, w0, b, w) :: rest, tail =>
    noOpenBefore tag t.length (assembleDoc tag ((t, w0, b, w) :: rest) tail)
    && w0.all isPyWs && balB 1 b && w.all isTrailWs
    && headNotTrailWs (assembleDoc tag rest tail)
    && SegsOKB tag rest tail

/-- `true` iff the definition regex matches at none of the first `k`
positions of the document (the Injection stage requires the freshly
generated artifact to contain no definition of the injected form). -/
def noDefBefore (lit : List Char) : Nat → List Char → Bool
  | 0, _ => true
  | _ + 1, [] => true
  | k + 1, c :: cs => !(defMatch lit (c :: cs)).isSome && noDefBefore lit k cs

/-- No matcher match at any position of the document. -/
def Clean (m : Matcher) (t : List Char) : Prop := ∀ i, m (t.drop i) = none

/-- `true` iff some position of the document matches one of the six rewrite
patterns of the Call Rewriter. -/
def matchesSomewhere : List Char → Bool
  | [] =>
    ((m1 []).isSome || (m2 []).isSome || (m3 []).isSome ||
     (m4 []).isSome || (m5 []).isSome || (m6 []).isSome)
  | c :: cs =>
    ((m1 (c :: cs)).isSome || (m2 (c :: cs)).isSome || (m3 (c :: cs)).isSome ||
     (m4 (c :: cs)).isSome || (m5 (c :: cs)).isSome || (m6 (c :: cs)).isSome) ||
    matchesSomewhere cs

/-- Every replacement emitted by a rewrite rule starts with `{this.` or
`{!this.` and contains no further opening brace; this is what makes the
rewritten forms invisible to all six patterns on a second pass. -/
def ReplGood (r : List Char) : Prop :=
  ((∃ u, r = '{' :: thisStr ++ u) ∨ (∃ u, r = '{' :: '!' :: thisStr ++ u)) ∧
  '{' ∉ r.drop 1

/-- The structural facts about a matcher used by the idempotence argument. -/
structure MOk (m : Matcher) : Prop where
  inv : ∀ s c r t, m s = some (c, r, t) → s = c ++ t
  necons : ∀ s c r t, m s = some (c, r, t) → c ≠ []
  brace : ∀ s c r t, m s = some (c, r, t) → ∃ u, c = '{' :: u ∧ '{' ∉ u
  repl : ∀ s c r t, m s = some (c, r, t) → ReplGood r
  extend : ∀ c r t, m (c ++ t) = some (c, r, t) → ∀ u, (m (c ++ u)).isSome
  nilNone : m [] = none
  headNone : ∀ x xs, x ≠ '{' → m (x :: xs) = none

/-- A matcher is blocked on every string beginning with a replacement
prefix `{this.` or `{!this.`. -/
def Blocked (m : Matcher) : Prop :=
  ∀ k, m ('{' :: thisStr ++ k) = none ∧ m ('{' :: '!' :: thisStr ++ k) = none

/-- Every match consumes at least one character. -/
def Consuming (m : Matcher) : Prop :=
  ∀ s c r t, m s = some (c, r, t) → t.length < s.length

/-! ## Basic helper lemmas -/

theorem stripLit_append (l t : List Char) : stripLit l (l ++ t) = some t := by
  induction l with
  | nil => rfl
  | cons c cs ih => simp [stripLit, ih]

theorem stripLit_some {l s t : List Char} (h : stripLit l s = some t) :
    s = l ++ t := by
  induction l generalizing s with
  | nil => simpa [stripLit] using h
  | cons c cs ih =>
    cases s with
    | nil => simp [stripLit] at h
    | cons x xs =>
      by_cases hc : c = x
      · subst hc
        simp only [stripLit, beq_self_eq_true, if_pos] at h
        simpa using ih h
      · simp [stripLit, hc] at h

theorem toList_asString (l : List Char) : (l.asString).toList = l := rfl

theorem toList_append (s t : String) : (s ++ t).toList = s.toList ++ t.toList :=
  String.data_append s t

theorem takeWhile_append_stop {p : Char → Bool} {a : List Char} (b : List Char)
    {x : Char} (ha : ∀ c ∈ a, p c = true) (hx : p x = false) :
    (a ++ x :: b).takeWhile p = a := by
  induction a with
  | nil => simp [List.takeWhile, hx]
  | cons c cs ih =>
    have hc : p c = true := ha c (by simp)
    simp only [List.cons_append, List.takeWhile_cons, hc, if_pos]
    simp [ih (fun d hd => ha d (by simp [hd]))]

theorem dropWhile_append_stop {p : Char → Bool} {a : List Char} (b : List Char)
    {x : Char} (ha : ∀ c ∈ a, p c = true) (hx : p x = false) :
    (a ++ x :: b).dropWhile p = x :: b := by
  induction a with
  | nil => simp [List.dropWhile, hx]
  | cons c cs ih =>
    have hc : p c = true := ha c (by simp)
    simp only [List.cons_append, List.dropWhile_cons, hc, if_pos]
    exact ih (fun d hd => ha d (by simp [hd]))

theorem dropWhile_append_all {p : Char → Bool} {a : List Char} (b : List Char)
    (ha : ∀ c ∈ a, p c = true) :
    (a ++ b).dropWhile p = b.dropWhile p := by
  induction a with
  | nil => simp
  | cons c cs ih =>
    have hc : p c = true := ha c (by simp)
    simp only [List.cons_append, List.dropWhile_cons, hc, if_pos]
    exact ih (fun d hd => ha d (by simp [hd]))

/-! ## Claim C7: end-to-end scenario -/

/-- C7: stripping the `members` region from
`"@members {int x;}\nfoo : {isHint()}? BAR ;"` and rewriting the calls
yields exactly `"foo : {this.isHint()}? BAR ;"`: the `@members` block and
its trailing whitespace are gone and the predicate call is rewritten with
the trailing `?` preserved. -/
theorem c7_end_to_end_scenario :
    transform_predicates_for_js
        (remove_block "@members \x7bint x;\x7d\nfoo : \x7bisHint()\x7d? BAR ;" "members")
      = "foo : \x7bthis.isHint()\x7d? BAR ;" := by decide

/-! ## Claim C6: the push idiom and whitespace variations -/

/-- C6 counterexample: the two whitespace variations of the push action
from the claim are returned unchanged by the Call Rewriter, and are not
equal to the fixed push-tag idiom; the special-form regex admits no
whitespace variation inside the braces. -/
theorem c6_counterexample_whitespace :
    transform_predicates_for_js "\x7b tags.push(getText()); \x7d"
        = "\x7b tags.push(getText()); \x7d"
  ∧ transform_predicates_for_js "\x7btags.push( getText() );\x7d"
        = "\x7btags.push( getText() );\x7d"
  ∧ "\x7b tags.push(getText()); \x7d" ≠ "\x7bthis.pushDollarTag();\x7d"
  ∧ "\x7btags.push( getText() );\x7d" ≠ "\x7bthis.pushDollarTag();\x7d" := by decide

/-- C6 amended: exactly the two whitespace-free spellings matched by the
source regex (the push action with and without the statement terminator)
are rewritten to the fixed push-tag idiom `{this.pushDollarTag();}`. -/
theorem c6_push_idiom_exact :
    transform_predicates_for_js "\x7btags.push(getText());\x7d"
        = "\x7bthis.pushDollarTag();\x7d"
  ∧ transform_predicates_for_js "\x7btags.push(getText())\x7d"
        = "\x7bthis.pushDollarTag();\x7d" := by decide

/-! ## Claim C8: the Pipeline Driver -/

theorem runSteps_spec (f : String → Bool) (l : List String) :
    runSteps f l =
      (l.takeWhile f ++ (l.dropWhile f).take 1, if l.all f then 0 else 1) := by
  induction l with
  | nil => simp [runSteps]
  | cons n rest ih =>
    by_cases h : f n = true
    · simp [runSteps, h, ih]
    · simp [runSteps, Bool.eq_false_iff.mpr h, h]

/-- C8: the Driver runs the fixed step list Transform, Generate, Inject,
Verify in order; the invoked steps are the successful prefix followed by
the first failing step (if any), so no stage after the first failure is
invoked; the exit code is 0 iff all four stages report success and 1
otherwise. -/
theorem c8_driver_order_and_exit (f : String → Bool) :
    mainDriver f =
      (pipelineSteps.takeWhile f ++ (pipelineSteps.dropWhile f).take 1,
       if pipelineSteps.all f then 0 else 1)
  ∧ ((mainDriver f).2 = 0 ↔ pipelineSteps.all f = true)
  ∧ ((mainDriver f).2 = 1 ↔ pipelineSteps.all f = false) := by
  have h := runSteps_spec f pipelineSteps
  refine ⟨h, ?_, ?_⟩
  · rw [mainDriver, h]
    by_cases hall : pipelineSteps.all f = true <;> simp [hall]
  · rw [mainDriver, h]
    by_cases hall : pipelineSteps.all f = true <;> simp [hall]

/-! ## Claim C10: injection appends to the right-stripped artifact -/

theorem pyRstrip_decomp (s : List Char) :
    ∃ w, s = pyRstrip s ++ w ∧ w.all isPyWs = true := by
  refine ⟨(s.reverse.takeWhile isPyWs).reverse, ?_, ?_⟩
  · conv_lhs => rw [← s.reverse_reverse]
    rw [pyRstrip, ← List.reverse_append]
    congr 1
    exact (List.takeWhile_append_dropWhile isPyWs s.reverse).symm
  · rw [List.all_eq_true]
    intro c hc
    rw [List.mem_reverse] at hc
    exact List.mem_takeWhile_imp hc

/-- C10: for every artifact content, the Predicate Injection Stage produces
exactly the right-stripped original followed by the fixed implementation
block (for lexer and parser alike); the original decomposes as its
right-stripped prefix plus trailing whitespace, so every character up to
and including the last non-whitespace character is preserved and only
trailing whitespace is lost; and the original text is in general not a
verbatim prefix of the result. -/
theorem c10_injection_rstrips (s : String) :
    injectLexerContent s = (pyRstrip s.toList).asString ++ lexer_predicates_js
  ∧ injectParserContent s = (pyRstrip s.toList).asString ++ parser_predicates_js
  ∧ (∃ w, s.toList = pyRstrip s.toList ++ w ∧ w.all isPyWs = true)
  ∧ ¬ (∃ w, "x\n\n\n".toList ++ w = (injectLexerContent "x\n\n\n").toList) := by
  refine ⟨rfl, rfl, pyRstrip_decomp s.toList, ?_⟩
  rintro ⟨w, hw⟩
  have h4 : ("x\n\n\n".toList ++ w).take 4 = (injectLexerContent "x\n\n\n").toList.take 4 := by
    rw [hw]
  rw [List.take_left' (by decide)] at h4
  have h5 : (injectLexerContent "x\n\n\n").toList.take 4 = ['x', '\n', '\n', '/'] := by decide
  rw [h5] at h4
  exact absurd h4 (by decide)

/-! ## Claim C3: stage outcomes and the missing-artifact exception -/

theorem isSome_false_eq_none {α : Type} {o : Option α} (h : o.isSome = false) :
    o = none := by
  cases o with
  | none => rfl
  | some v => simp at h

theorem length_dropWhile_le (p : Char → Bool) (l : List Char) :
    (l.dropWhile p).length ≤ l.length := by
  induction l with
  | nil => simp [List.dropWhile]
  | cons c cs ih =>
    rw [List.dropWhile_cons]
    split
    · exact Nat.le_trans ih (Nat.le_succ _)
    · exact Nat.le_refl _

/-- C3 counterexample: on a filesystem state with no generated artifacts,
`verify_predicates` does not return a status at all: the unguarded
`read_text` (script line 409) raises `FileNotFoundError`, which crosses
the stage boundary. -/
theorem c3_counterexample_missing_artifact :
    verify_predicates [] = Except.error "FileNotFoundError: SqlBaseLexer.js" := rfl

/-- C3 amended: `transform_grammar` and `add_predicate_implementations`
return a boolean status on every filesystem state (missing inputs are
reported as `false` after an existence check, never as an exception), but
`verify_predicates` returns a status iff both generated artifacts exist;
when one is absent it raises instead of reporting failure. -/
theorem c3_stage_outcomes (fs : FS) :
    (∃ v, transform_grammar fs = Except.ok v)
  ∧ (∃ v, add_predicate_implementations fs = Except.ok v)
  ∧ ((∃ b, verify_predicates fs = Except.ok b) ↔
      ((fsRead fs genLexerJs).isSome ∧ (fsRead fs genParserJs).isSome)) := by
  refine ⟨?_, ?_, ?_⟩
  · unfold transform_grammar
    split
    · exact ⟨_, rfl⟩
    · dsimp only
      split
      · exact ⟨_, rfl⟩
      · exact ⟨_, rfl⟩
  · unfold add_predicate_implementations
    split
    · exact ⟨_, rfl⟩
    · dsimp only
      split
      · exact ⟨_, rfl⟩
      · exact ⟨_, rfl⟩
  · unfold verify_predicates
    cases h1 : fsRead fs genLexerJs with
    | none => simp [h1]
    | some c1 =>
      cases h2 : fsRead fs genParserJs with
      | none => simp [h1, h2]
      | some c2 => simp [h1, h2]

/-! ## Block Stripper lemmas -/

theorem skipBrace_cons_open (d : Nat) (cs : List Char) :
    skipBrace d ('{' :: cs) = skipBrace (d + 1) cs := by
  simp [skipBrace]

theorem skipBrace_cons_close_one (cs : List Char) :
    skipBrace 1 ('}' :: cs) = cs := by
  simp [skipBrace]

theorem skipBrace_cons_close {d : Nat} (hd : ¬ d = 1) (cs : List Char) :
    skipBrace d ('}' :: cs) = skipBrace (d - 1) cs := by
  show (if d = 1 then cs else skipBrace (d - 1) cs) = skipBrace (d - 1) cs
  rw [if_neg hd]

theorem skipBrace_cons_other {c : Char} (h1 : ¬ c = '{') (h2 : ¬ c = '}')
    (d : Nat) (cs : List Char) :
    skipBrace d (c :: cs) = skipBrace d cs := by
  simp only [skipBrace]
  rw [if_neg h1, if_neg h2]

theorem skipBrace_length_le (d : Nat) (s : List Char) :
    (skipBrace d s).length ≤ s.length := by
  induction s generalizing d with
  | nil => simp [skipBrace]
  | cons c cs ih =>
    simp only [skipBrace]
    split
    · exact Nat.le_trans (ih _) (Nat.le_succ _)
    · split
      · split
        · simp
        · exact Nat.le_trans (ih _) (Nat.le_succ _)
      · exact Nat.le_trans (ih _) (Nat.le_succ _)

theorem openMatchTail_length {r2 after : List Char}
    (h : openMatchTail r2 = some after) : after.length < r2.length := by
  unfold openMatchTail at h
  split at h
  next r4 heq4 =>
    injection h with h5
    have h4 : ('{' :: r4).length ≤ r2.length := by
      rw [← heq4]; exact length_dropWhile_le _ _
    subst h5
    simp only [List.length_cons] at h4
    omega
  next => exact absurd h (by simp)

theorem openMatch_length {tag s after : List Char}
    (h : openMatch tag s = some after) : after.length < s.length := by
  unfold openMatch at h
  split at h
  next r =>
    split at h
    next r2 heq2 =>
      have h4 := openMatchTail_length h
      have h5 : r2.length ≤ r.length := by rw [stripLit_some heq2]; simp
      simp only [List.length_cons]
      omega
    next => exact absurd h (by simp)
  next => exact absurd h (by simp)

theorem removeBlockF_congr (tag : List Char) :
    ∀ f g s, s.length ≤ f → s.length ≤ g →
      removeBlockF tag f s = removeBlockF tag g s := by
  intro f
  induction f with
  | zero =>
    intro g s hf _
    have hs : s = [] := List.length_eq_zero.mp (Nat.le_zero.mp hf)
    subst hs
    cases g <;> rfl
  | succ f ih =>
    intro g s hf hg
    cases s with
    | nil => cases g <;> rfl
    | cons x xs =>
      cases g with
      | zero => exact absurd hg (by simp)
      | succ g =>
        simp only [removeBlockF]
        cases h : openMatch tag (x :: xs) with
        | some after =>
          have hlen : after.length < xs.length + 1 := by
            have h0 := openMatch_length h
            simpa using h0
          have h1 : ((skipBrace 1 after).dropWhile isTrailWs).length ≤ after.length :=
            Nat.le_trans (length_dropWhile_le _ _) (skipBrace_length_le _ _)
          simp only [List.length_cons] at hf hg
          exact ih g _ (by omega) (by omega)
        | none =>
          simp only [List.length_cons] at hf hg
          rw [ih g xs (by omega) (by omega)]

theorem removeBlock_cons_none {tag : List Char} {x : Char} {xs : List Char}
    (h : openMatch tag (x :: xs) = none) :
    removeBlockList (x :: xs) tag = x :: removeBlockList xs tag := by
  simp only [removeBlockList, List.length_cons, removeBlockF, h]

theorem removeBlock_cons_some {tag s after : List Char}
    (h : openMatch tag s = some after) :
    removeBlockList s tag =
      removeBlockList ((skipBrace 1 after).dropWhile isTrailWs) tag := by
  cases s with
  | nil => simp [openMatch] at h
  | cons x xs =>
    simp only [removeBlockList, List.length_cons, removeBlockF, h]
    apply removeBlockF_congr
    · have hlen : after.length < xs.length + 1 := by
        have h0 := openMatch_length h
        simpa using h0
      have h1 : ((skipBrace 1 after).dropWhile isTrailWs).length ≤ after.length :=
        Nat.le_trans (length_dropWhile_le _ _) (skipBrace_length_le _ _)
      omega
    · exact Nat.le_refl _

theorem removeBlock_id {tag : List Char} :
    ∀ {s : List Char}, hasOpenB tag s = false → removeBlockList s tag = s := by
  intro s
  induction s with
  | nil => intro _; rfl
  | cons x xs ih =>
    intro h
    simp only [hasOpenB, Bool.or_eq_false_iff] at h
    obtain ⟨h1, h2⟩ := h
    rw [removeBlock_cons_none (isSome_false_eq_none h1), ih h2]

theorem removeBlock_copy {tag : List Char} :
    ∀ {t X : List Char}, noOpenBefore tag t.length (t ++ X) = true →
      removeBlockList (t ++ X) tag = t ++ removeBlockList X tag := by
  intro t
  induction t with
  | nil => intro X _; rfl
  | cons c cs ih =>
    intro X h
    rw [List.cons_append] at h ⊢
    simp only [List.length_cons, noOpenBefore, Bool.and_eq_true] at h
    obtain ⟨h1, h2⟩ := h
    have h1n : openMatch tag (c :: (cs ++ X)) = none :=
      isSome_false_eq_none (by simpa using h1)
    rw [removeBlock_cons_none h1n, ih h2, List.cons_append]

theorem skipBrace_balanced :
    ∀ {b : List Char} {d : Nat}, balB d b = true → ∀ r,
      skipBrace d (b ++ '}' :: r) = r := by
  intro b
  induction b with
  | nil =>
    intro d h r
    simp only [balB, beq_iff_eq] at h
    subst h
    simp [skipBrace_cons_close_one]
  | cons c cs ih =>
    intro d h r
    simp only [balB] at h
    rw [List.cons_append]
    by_cases hc1 : c = '{'
    · subst hc1
      rw [if_pos rfl] at h
      rw [skipBrace_cons_open]
      exact ih h r
    · by_cases hc2 : c = '}'
      · subst hc2
        rw [if_neg (by decide : ¬ ('}' : Char) = '{'), if_pos rfl,
          Bool.and_eq_true, decide_eq_true_eq] at h
        obtain ⟨hd, h⟩ := h
        rw [skipBrace_cons_close (by omega) _]
        exact ih h r
      · rw [if_neg hc1, if_neg hc2] at h
        rw [skipBrace_cons_other hc1 hc2]
        exact ih h r

theorem skipBrace_open :
    ∀ {b : List Char} {d : Nat}, openB d b = true → skipBrace d b = [] := by
  intro b
  induction b with
  | nil => intro d _; rfl
  | cons c cs ih =>
    intro d h
    simp only [openB] at h
    by_cases hc1 : c = '{'
    · subst hc1
      rw [if_pos rfl] at h
      rw [skipBrace_cons_open]
      exact ih h
    · by_cases hc2 : c = '}'
      · subst hc2
        rw [if_neg (by decide : ¬ ('}' : Char) = '{'), if_pos rfl,
          Bool.and_eq_true, decide_eq_true_eq] at h
        obtain ⟨hd, h⟩ := h
        rw [skipBrace_cons_close (by omega) _]
        exact ih h
      · rw [if_neg hc1, if_neg hc2] at h
        rw [skipBrace_cons_other hc1 hc2]
        exact ih h

theorem openMatch_construct {tag w0 : List Char} (hw : w0.all isPyWs = true)
    (X : List Char) :
    openMatch tag ('@' :: tag ++ w0 ++ '{' :: X) = some X := by
  have hw2 : ∀ c ∈ w0, isPyWs c = true := List.all_eq_true.mp hw
  have h2 : (w0 ++ '{' :: X).dropWhile isPyWs = '{' :: X :=
    dropWhile_append_stop X hw2 (by decide)
  have hW : '@' :: tag ++ w0 ++ '{' :: X = '@' :: (tag ++ (w0 ++ '{' :: X)) := by
    simp
  rw [hW]
  show (match stripLit tag (tag ++ (w0 ++ '{' :: X)) with
        | some r2 => openMatchTail r2
        | none => none) = some X
  rw [stripLit_append]
  show openMatchTail (w0 ++ '{' :: X) = some X
  unfold openMatchTail
  rw [h2]
  rfl

theorem dropWhile_trailws {w Y : List Char} (hw : w.all isTrailWs = true)
    (hY : headNotTrailWs Y = true) : (w ++ Y).dropWhile isTrailWs = Y := by
  have hw2 : ∀ c ∈ w, isTrailWs c = true := List.all_eq_true.mp hw
  cases Y with
  | nil =>
    rw [List.append_nil, List.dropWhile_eq_nil_iff]
    intro x hx
    exact hw2 x hx
  | cons y ys =>
    refine dropWhile_append_stop ys hw2 ?_
    simpa [headNotTrailWs] using hY

theorem c4_stripper_structural (tag : List Char) :
    ∀ (segs : List Seg) (tail : List Char), SegsOKB tag segs tail = true →
      removeBlockList (assembleDoc tag segs tail) tag = cleanParts segs tail := by
  intro segs
  induction segs with
  | nil =>
    intro tail h
    simp only [SegsOKB, Bool.not_eq_eq_eq_not, Bool.not_true] at h
    simpa [assembleDoc, cleanParts] using removeBlock_id h
  | cons seg rest ih =>
    intro tail h
    obtain ⟨t, w0, b, w⟩ := seg
    simp only [SegsOKB, Bool.and_eq_true] at h
    obtain ⟨⟨⟨⟨⟨h1, h2⟩, h3⟩, h4⟩, h5⟩, h6⟩ := h
    show removeBlockList
        (t ++ ('@' :: tag ++ w0 ++ '{' :: (b ++ '}' :: (w ++ assembleDoc tag rest tail)))) tag
      = cleanParts ((t, w0, b, w) :: rest) tail
    rw [removeBlock_copy h1]
    rw [removeBlock_cons_some (openMatch_construct h2 _)]
    rw [skipBrace_balanced h3]
    rw [dropWhile_trailws h4 h5]
    rw [ih tail h6]
    simp [cleanParts]

/-! ## Claim C4: the Block Stripper on documents with N balanced blocks -/

/-- C4 counterexample: the grammar text `"@mem@members {x}bers {y}"` contains
exactly one balanced occurrence of the `@members { ... }` pattern, yet after
stripping it the juxtaposition of the retained text forms `"@members {y}"`,
which still contains an occurrence of the tag pattern — the result does not
contain zero occurrences of the tag. -/
theorem c4_counterexample_juxtaposition :
    remove_block "@mem@members \x7bx\x7dbers \x7by\x7d" "members" = "@members \x7by\x7d"
  ∧ hasOpenB "members".toList
      (remove_block "@mem@members \x7bx\x7dbers \x7by\x7d" "members").toList = true := by
  refine ⟨by decide, by decide⟩

/-- C4 amended: for a grammar text decomposable into N balanced
`@<tag> { ... }` occurrences interleaved with clean text (no occurrence of
the open pattern starting in the clean parts, each block body
brace-balanced, each trailing whitespace run maximal), the Block Stripper
removes exactly the N block regions together with their trailing
whitespace, copying every character outside the removed regions verbatim in
order; provided additionally that the retained text does not juxtapose into
a new occurrence of the pattern, the result contains zero occurrences of
the tag. -/
theorem c4_block_stripper (tag : List Char) (segs : List Seg) (tail : List Char)
    (h : SegsOKB tag segs tail = true)
    (hclean : hasOpenB tag (cleanParts segs tail) = false) :
    removeBlockList (assembleDoc tag segs tail) tag = cleanParts segs tail
  ∧ hasOpenB tag (removeBlockList (assembleDoc tag segs tail) tag) = false := by
  have h1 := c4_stripper_structural tag segs tail h
  exact ⟨h1, by rw [h1]; exact hclean⟩

/-- C4 witness: a document with two `@members` blocks (one with nested
braces) is stripped to exactly its clean parts, which contain no further
occurrence of the tag. -/
theorem c4_block_stripper_witness :
    (SegsOKB "members".toList
        [("foo ".toList, [' '], "int x;".toList, ['\n']),
         ("bar ".toList, [], "a \x7bb\x7d c".toList, [' ', ' '])] "baz".toList = true)
  ∧ (hasOpenB "members".toList
        (cleanParts
          [("foo ".toList, [' '], "int x;".toList, ['\n']),
           ("bar ".toList, [], "a \x7bb\x7d c".toList, [' ', ' '])] "baz".toList) = false)
  ∧ removeBlockList
        (assembleDoc "members".toList
          [("foo ".toList, [' '], "int x;".toList, ['\n']),
           ("bar ".toList, [], "a \x7bb\x7d c".toList, [' ', ' '])] "baz".toList)
        "members".toList
      = cleanParts
          [("foo ".toList, [' '], "int x;".toList, ['\n']),
           ("bar ".toList, [], "a \x7bb\x7d c".toList, [' ', ' '])] "baz".toList := by
  refine ⟨by decide, by decide, ?_⟩
  exact (c4_block_stripper "members".toList _ _ (by decide) (by decide)).1

/-! ## Claim C5: the Block Stripper on unbalanced input -/

/-- C5: the Block Stripper is a total function of its input (the embedding
is a terminating scan for every input string and tag, mirroring the
script's loop, which always advances its index); when a matched region
opens but its braces never return to depth zero, the scan consumes
everything from the region opening to the end of the document: the result
is exactly the clean text before the region. -/
theorem c5_unbalanced_consumes_to_end (tag t w0 b : List Char)
    (ht : noOpenBefore tag t.length (t ++ ('@' :: tag ++ w0 ++ '{' :: b)) = true)
    (hw : w0.all isPyWs = true) (hb : openB 1 b = true) :
    removeBlockList (t ++ ('@' :: tag ++ w0 ++ '{' :: b)) tag = t := by
  rw [removeBlock_copy ht]
  rw [removeBlock_cons_some (openMatch_construct hw b)]
  rw [skipBrace_open hb]
  simp [removeBlockList, removeBlockF]

/-- C5 witness: the unbalanced document `"a @members {{x"` is reduced to
its clean text `"a "`; everything from the region opening to the end of
the document is consumed without an error. -/
theorem c5_unbalanced_witness :
    (noOpenBefore "members".toList 2
        ("a ".toList ++ ('@' :: "members".toList ++ [' '] ++ '{' :: "\x7bx".toList)) = true)
  ∧ ([' '].all isPyWs = true)
  ∧ (openB 1 "\x7bx".toList = true)
  ∧ removeBlockList
        ("a ".toList ++ ('@' :: "members".toList ++ [' '] ++ '{' :: "\x7bx".toList))
        "members".toList = "a ".toList := by
  refine ⟨by decide, by decide, by decide, ?_⟩
  exact c5_unbalanced_consumes_to_end "members".toList "a ".toList [' '] "\x7bx".toList
    (by decide) (by decide) (by decide)

/-! ## Coverage Verifier lemmas -/

theorem defMatchTail_length {r n rest : List Char}
    (h : defMatchTail r = some (n, rest)) : rest.length < r.length := by
  unfold defMatchTail at h
  split at h
  next => exact absurd h (by simp)
  next n0 ns heq2 =>
    split at h
    next t heq3 =>
      simp only [Option.some.injEq, Prod.mk.injEq] at h
      obtain ⟨h6, h7⟩ := h
      have h4 : ('=' :: t).length ≤ (r.dropWhile isWordChar).length := by
        rw [← heq3]; exact length_dropWhile_le _ _
      have h5 : (r.dropWhile isWordChar).length ≤ r.length :=
        length_dropWhile_le _ _
      rw [← h7]
      simp only [List.length_cons] at h4
      omega
    next => exact absurd h (by simp)

theorem defMatch_length {lit s n rest : List Char}
    (h : defMatch lit s = some (n, rest)) : rest.length < s.length := by
  unfold defMatch at h
  split at h
  next r heq =>
    have h1 := defMatchTail_length h
    have h2 : s = lit ++ r := stripLit_some heq
    have h3 : r.length ≤ s.length := by rw [h2]; simp
    omega
  next => exact absurd h (by simp)

theorem findDefsF_congr (lit : List Char) :
    ∀ f g s, s.length ≤ f → s.length ≤ g →
      findDefsF lit f s = findDefsF lit g s := by
  intro f
  induction f with
  | zero =>
    intro g s hf _
    have hs : s = [] := List.length_eq_zero.mp (Nat.le_zero.mp hf)
    subst hs
    cases g <;> rfl
  | succ f ih =>
    intro g s hf hg
    cases s with
    | nil => cases g <;> rfl
    | cons x xs =>
      cases g with
      | zero => exact absurd hg (by simp)
      | succ g =>
        simp only [findDefsF]
        cases h : defMatch lit (x :: xs) with
        | some nr =>
          obtain ⟨n, rest⟩ := nr
          have hlen : rest.length < xs.length + 1 := by
            have h0 := defMatch_length h
            simpa using h0
          simp only [List.length_cons] at hf hg
          show n :: findDefsF lit f rest = n :: findDefsF lit g rest
          rw [ih g rest (by omega) (by omega)]
        | none =>
          simp only [List.length_cons] at hf hg
          show findDefsF lit f xs = findDefsF lit g xs
          exact ih g xs (by omega) (by omega)

theorem findDefs_cons_of_none {lit : List Char} {x : Char} {xs : List Char}
    (h : defMatch lit (x :: xs) = none) :
    findDefs lit (x :: xs) = findDefs lit xs := by
  simp only [findDefs, List.length_cons, findDefsF, h]

theorem findDefs_site {lit c n : List Char} (hne : c ≠ [])
    (h : ∀ u, defMatch lit (c ++ u) = some (n, u)) (b : List Char) :
    findDefs lit (c ++ b) = n :: findDefs lit b := by
  cases c with
  | nil => exact absurd rfl hne
  | cons y ys =>
    rw [List.cons_append]
    simp only [findDefs, List.length_cons, findDefsF]
    rw [show y :: (ys ++ b) = (y :: ys) ++ b from (List.cons_append y ys b).symm, h b]
    simp only [List.cons.injEq, true_and]
    apply findDefsF_congr
    · simp
    · exact Nat.le_refl _

theorem findDefs_skip {lit : List Char} :
    ∀ (a b : List Char), noDefBefore lit a.length (a ++ b) = true →
      findDefs lit (a ++ b) = findDefs lit b := by
  intro a
  induction a with
  | nil => intro b _; rfl
  | cons c cs ih =>
    intro b h
    rw [List.cons_append] at h ⊢
    simp only [List.length_cons, noDefBefore, Bool.and_eq_true] at h
    obtain ⟨h1, h2⟩ := h
    rw [findDefs_cons_of_none (isSome_false_eq_none (by simpa using h1)), ih b h2]

theorem findDefs_of_none {lit : List Char} :
    ∀ (s : List Char), noDefBefore lit s.length s = true →
      findDefs lit s = [] := by
  intro s
  induction s with
  | nil => intro _; rfl
  | cons c cs ih =>
    intro h
    simp only [List.length_cons, noDefBefore, Bool.and_eq_true] at h
    obtain ⟨h1, h2⟩ := h
    rw [findDefs_cons_of_none (isSome_false_eq_none (by simpa using h1)), ih h2]

theorem isSubstr_append_right {lit b : List Char} (h : isSubstr lit b = true) :
    ∀ a, isSubstr lit (a ++ b) = true := by
  intro a
  induction a with
  | nil => simpa using h
  | cons c cs ih =>
    rw [List.cons_append]
    simp only [isSubstr, Bool.or_eq_true]
    exact Or.inr ih

theorem fsRead_write_eq (fs : FS) (p v : String) :
    fsRead (fsWrite fs p v) p = some v := by
  simp [fsRead, fsWrite, List.find?]

theorem fsRead_write_ne (fs : FS) {p q : String} (v : String)
    (h : (q == p) = false) :
    fsRead (fsWrite fs p v) q = fsRead fs q := by
  have h2 : (p == q) = false := by
    rw [beq_eq_false_iff_ne] at h ⊢
    exact fun e => h e.symm
  simp [fsRead, fsWrite, List.find?, h2]

theorem lexJsSite1_step :
    ∀ u, defMatch litLexerProto (lexJsChunk1.toList ++ u) = some ("has_unclosed_bracketed_comment".toList, u) :=
  fun _ => rfl

theorem lexJsSite2_step :
    ∀ u, defMatch litLexerProto (lexJsChunk3.toList ++ u) = some ("complex_type_level_counter".toList, u) :=
  fun _ => rfl

theorem lexJsSite3_step :
    ∀ u, defMatch litLexerProto (lexJsChunk5.toList ++ u) = some ("dollar_tags".toList, u) :=
  fun _ => rfl

theorem lexJsSite4_step :
    ∀ u, defMatch litLexerProto (lexJsChunk7.toList ++ u) = some ("isValidDecimal".toList, u) :=
  fun _ => rfl

theorem lexJsSite5_step :
    ∀ u, defMatch litLexerProto (lexJsChunk9.toList ++ u) = some ("isHint".toList, u) :=
  fun _ => rfl

theorem lexJsSite6_step :
    ∀ u, defMatch litLexerProto (lexJsChunk11.toList ++ u) = some ("isShiftRightOperator".toList, u) :=
  fun _ => rfl

theorem lexJsSite7_step :
    ∀ u, defMatch litLexerProto (lexJsChunk13.toList ++ u) = some ("incComplexTypeLevelCounter".toList, u) :=
  fun _ => rfl

theorem lexJsSite8_step :
    ∀ u, defMatch litLexerProto (lexJsChunk15.toList ++ u) = some ("decComplexTypeLevelCounter".toList, u) :=
  fun _ => rfl

theorem lexJsSite9_step :
    ∀ u, defMatch litLexerProto (lexJsChunk17.toList ++ u) = some ("markUnclosedComment".toList, u) :=
  fun _ => rfl

theorem lexJsSite10_step :
    ∀ u, defMatch litLexerProto (lexJsChunk19.toList ++ u) = some ("pushDollarTag".toList, u) :=
  fun _ => rfl

theorem lexJsSite11_step :
    ∀ u, defMatch litLexerProto (lexJsChunk21.toList ++ u) = some ("popDollarTag".toList, u) :=
  fun _ => rfl

theorem lexJsSite12_step :
    ∀ u, defMatch litLexerProto (lexJsChunk23.toList ++ u) = some ("matchesDollarTag".toList, u) :=
  fun _ => rfl

theorem lexJs_toList :
    lexer_predicates_js.toList = lexJsChunk0.toList ++ (lexJsChunk1.toList ++ (lexJsChunk2.toList ++ (lexJsChunk3.toList ++ (lexJsChunk4.toList ++ (lexJsChunk5.toList ++ (lexJsChunk6.toList ++ (lexJsChunk7.toList ++ (lexJsChunk8.toList ++ (lexJsChunk9.toList ++ (lexJsChunk10.toList ++ (lexJsChunk11.toList ++ (lexJsChunk12.toList ++ (lexJsChunk13.toList ++ (lexJsChunk14.toList ++ (lexJsChunk15.toList ++ (lexJsChunk16.toList ++ (lexJsChunk17.toList ++ (lexJsChunk18.toList ++ (lexJsChunk19.toList ++ (lexJsChunk20.toList ++ (lexJsChunk21.toList ++ (lexJsChunk22.toList ++ (lexJsChunk23.toList ++ (lexJsChunk24.toList)))))))))))))))))))))))) := by
  simp only [lexer_predicates_js, toList_append]

set_option maxRecDepth 20000 in
theorem findDefs_lexJsBlock :
    findDefs litLexerProto lexer_predicates_js.toList = lexBlockNames := by
  rw [lexJs_toList]
  rw [findDefs_skip _ _ (by decide)]
  rw [findDefs_site (by decide) lexJsSite1_step _]
  rw [findDefs_skip _ _ (by decide)]
  rw [findDefs_site (by decide) lexJsSite2_step _]
  rw [findDefs_skip _ _ (by decide)]
  rw [findDefs_site (by decide) lexJsSite3_step _]
  rw [findDefs_skip _ _ (by decide)]
  rw [findDefs_site (by decide) lexJsSite4_step _]
  rw [findDefs_skip _ _ (by decide)]
  rw [findDefs_site (by decide) lexJsSite5_step _]
  rw [findDefs_skip _ _ (by decide)]
  rw [findDefs_site (by decide) lexJsSite6_step _]
  rw [findDefs_skip _ _ (by decide)]
  rw [findDefs_site (by decide) lexJsSite7_step _]
  rw [findDefs_skip _ _ (by decide)]
  rw [findDefs_site (by decide) lexJsSite8_step _]
  rw [findDefs_skip _ _ (by decide)]
  rw [findDefs_site (by decide) lexJsSite9_step _]
  rw [findDefs_skip _ _ (by decide)]
  rw [findDefs_site (by decide) lexJsSite10_step _]
  rw [findDefs_skip _ _ (by decide)]
  rw [findDefs_site (by decide) lexJsSite11_step _]
  rw [findDefs_skip _ _ (by decide)]
  rw [findDefs_site (by decide) lexJsSite12_step _]
  rw [findDefs_of_none _ (by decide)]
  rfl

theorem parJsSite1_step :
    ∀ u, defMatch litParserProto (parJsChunk1.toList ++ u) = some ("legacy_setops_precedence_enabled".toList, u) :=
  fun _ => rfl

theorem parJsSite2_step :
    ∀ u, defMatch litParserProto (parJsChunk3.toList ++ u) = some ("legacy_exponent_literal_as_decimal_enabled".toList, u) :=
  fun _ => rfl

theorem parJsSite3_step :
    ∀ u, defMatch litParserProto (parJsChunk5.toList ++ u) = some ("SQL_standard_keyword_behavior".toList, u) :=
  fun _ => rfl

theorem parJsSite4_step :
    ∀ u, defMatch litParserProto (parJsChunk7.toList ++ u) = some ("double_quoted_identifiers".toList, u) :=
  fun _ => rfl

theorem parJsSite5_step :
    ∀ u, defMatch litParserProto (parJsChunk9.toList ++ u) = some ("parameter_substitution_enabled".toList, u) :=
  fun _ => rfl

theorem parJsSite6_step :
    ∀ u, defMatch litParserProto (parJsChunk11.toList ++ u) = some ("legacy_identifier_clause_only".toList, u) :=
  fun _ => rfl

theorem parJsSite7_step :
    ∀ u, defMatch litParserProto (parJsChunk13.toList ++ u) = some ("single_character_pipe_operator_enabled".toList, u) :=
  fun _ => rfl

theorem parJsSite8_step :
    ∀ u, defMatch litParserProto (parJsChunk15.toList ++ u) = some ("isOperatorPipeStart".toList, u) :=
  fun _ => rfl

theorem parJs_toList :
    parser_predicates_js.toList = parJsChunk0.toList ++ (parJsChunk1.toList ++ (parJsChunk2.toList ++ (parJsChunk3.toList ++ (parJsChunk4.toList ++ (parJsChunk5.toList ++ (parJsChunk6.toList ++ (parJsChunk7.toList ++ (parJsChunk8.toList ++ (parJsChunk9.toList ++ (parJsChunk10.toList ++ (parJsChunk11.toList ++ (parJsChunk12.toList ++ (parJsChunk13.toList ++ (parJsChunk14.toList ++ (parJsChunk15.toList ++ (parJsChunk16.toList)))))))))))))))) := by
  simp only [parser_predicates_js, toList_append]

set_option maxRecDepth 20000 in
theorem findDefs_parJsBlock :
    findDefs litParserProto parser_predicates_js.toList = parBlockNames := by
  rw [parJs_toList]
  rw [findDefs_skip _ _ (by decide)]
  rw [findDefs_site (by decide) parJsSite1_step _]
  rw [findDefs_skip _ _ (by decide)]
  rw [findDefs_site (by decide) parJsSite2_step _]
  rw [findDefs_skip _ _ (by decide)]
  rw [findDefs_site (by decide) parJsSite3_step _]
  rw [findDefs_skip _ _ (by decide)]
  rw [findDefs_site (by decide) parJsSite4_step _]
  rw [findDefs_skip _ _ (by decide)]
  rw [findDefs_site (by decide) parJsSite5_step _]
  rw [findDefs_skip _ _ (by decide)]
  rw [findDefs_site (by decide) parJsSite6_step _]
  rw [findDefs_skip _ _ (by decide)]
  rw [findDefs_site (by decide) parJsSite7_step _]
  rw [findDefs_skip _ _ (by decide)]
  rw [findDefs_site (by decide) parJsSite8_step _]
  rw [findDefs_of_none _ (by decide)]
  rfl

set_option maxRecDepth 20000 in
theorem flags_in_parser_block :
    ∀ f ∈ requiredParserFlags,
      isSubstr ("prototype." ++ f).toList parser_predicates_js.toList = true := by
  decide

theorem injectLexer_toList (L : String) :
    (injectLexerContent L).toList = pyRstrip L.toList ++ lexer_predicates_js.toList := by
  simp only [injectLexerContent, toList_append, toList_asString]

theorem injectParser_toList (P : String) :
    (injectParserContent P).toList = pyRstrip P.toList ++ parser_predicates_js.toList := by
  simp only [injectParserContent, toList_append, toList_asString]

/-! ## Claim C2: injection provides every catalog name exactly once and
verification succeeds -/

/-- C2: on a filesystem state whose two generated artifacts are fresh (no
occurrence of the definition pattern begins in the artifact part of the
injected text), the Predicate Injection Stage appends its fixed blocks and
reports success; afterwards each of the nine required lexer names, the one
required parser method and the seven required parser flags has a matching
definition in its artifact exactly once, and the Coverage Verifier reports
success (`True`, empty missing sets). -/
theorem c2_injection_then_verify_covers (fs : FS) (L P : String)
    (hfsL : fsRead fs genLexerJs = some L)
    (hfsP : fsRead fs genParserJs = some P)
    (hL : noDefBefore litLexerProto (pyRstrip L.toList).length
        (injectLexerContent L).toList = true)
    (hP : noDefBefore litParserProto (pyRstrip P.toList).length
        (injectParserContent P).toList = true) :
    add_predicate_implementations fs =
      Except.ok
        (fsWrite (fsWrite fs genLexerJs (injectLexerContent L)) genParserJs
          (injectParserContent P), true)
  ∧ (∀ n ∈ requiredLexerPredicates,
      (findDefs litLexerProto (injectLexerContent L).toList).count n.toList = 1)
  ∧ (∀ n ∈ requiredParserPredicates,
      (findDefs litParserProto (injectParserContent P).toList).count n.toList = 1)
  ∧ (∀ n ∈ requiredParserFlags,
      (findDefs litParserProto (injectParserContent P).toList).count n.toList = 1)
  ∧ verify_predicates
      (fsWrite (fsWrite fs genLexerJs (injectLexerContent L)) genParserJs
        (injectParserContent P)) = Except.ok true := by
  have hfdL : findDefs litLexerProto (injectLexerContent L).toList = lexBlockNames := by
    rw [injectLexer_toList] at hL ⊢
    rw [findDefs_skip _ _ hL, findDefs_lexJsBlock]
  have hfdP : findDefs litParserProto (injectParserContent P).toList = parBlockNames := by
    rw [injectParser_toList] at hP ⊢
    rw [findDefs_skip _ _ hP, findDefs_parJsBlock]
  have hread2 : fsRead (fsWrite fs genLexerJs (injectLexerContent L)) genParserJs = some P := by
    rw [fsRead_write_ne _ _ (by decide)]
    exact hfsP
  refine ⟨?_, ?_, ?_, ?_, ?_⟩
  · unfold add_predicate_implementations
    rw [hfsL]
    dsimp only
    rw [hread2]
  · intro n hn
    rw [hfdL]
    fin_cases hn <;> decide
  · intro n hn
    rw [hfdP]
    fin_cases hn <;> decide
  · intro n hn
    rw [hfdP]
    fin_cases hn <;> decide
  · have hr1 : fsRead
        (fsWrite (fsWrite fs genLexerJs (injectLexerContent L)) genParserJs
          (injectParserContent P)) genLexerJs = some (injectLexerContent L) := by
      rw [fsRead_write_ne _ _ (by decide), fsRead_write_eq]
    have hr2 : fsRead
        (fsWrite (fsWrite fs genLexerJs (injectLexerContent L)) genParserJs
          (injectParserContent P)) genParserJs = some (injectParserContent P) := by
      rw [fsRead_write_eq]
    unfold verify_predicates
    rw [hr1]
    dsimp only
    rw [hr2]
    dsimp only
    have hvc : verifyContent (injectLexerContent L) (injectParserContent P) = true := by
      have hflags : requiredParserFlags.filter
          (fun f => !(isSubstr ("prototype." ++ f).toList
            (injectParserContent P).toList)) = [] := by
        rw [List.filter_eq_nil_iff]
        intro f hf
        have hsub : isSubstr ("prototype." ++ f).toList
            (injectParserContent P).toList = true := by
          rw [injectParser_toList]
          exact isSubstr_append_right (flags_in_parser_block f hf) _
        simp only [hsub, Bool.not_true]
        decide
      unfold verifyContent
      rw [hfdL, hfdP, hflags]
      decide
    rw [hvc]

/-- C2 witness: on the two-file filesystem with fresh artifact contents
`"A"` and `"B"`, injection succeeds and verification reports success. -/
theorem c2_injection_then_verify_covers_witness :
    verify_predicates
      (fsWrite (fsWrite [(genLexerJs, "A"), (genParserJs, "B")] genLexerJs
          (injectLexerContent "A")) genParserJs
        (injectParserContent "B")) = Except.ok true :=
  (c2_injection_then_verify_covers [(genLexerJs, "A"), (genParserJs, "B")] "A" "B"
    (by decide) (by decide) (by decide) (by decide)).2.2.2.2

/-! ## Generic machinery for the Call Rewriter idempotence argument -/

theorem MOk.consuming {m : Matcher} (hm : MOk m) : Consuming m := by
  intro s c r t h
  have h1 : s = c ++ t := hm.inv _ _ _ _ h
  have h2 : c ≠ [] := hm.necons _ _ _ _ h
  rw [h1, List.length_append]
  cases c with
  | nil => exact absurd rfl h2
  | cons y ys => simp

theorem substF_congr {m : Matcher} (hm : Consuming m) :
    ∀ f g s, s.length ≤ f → s.length ≤ g → substF m f s = substF m g s := by
  intro f
  induction f with
  | zero =>
    intro g s hf _
    have hs : s = [] := List.length_eq_zero.mp (Nat.le_zero.mp hf)
    subst hs
    cases g <;> rfl
  | succ f ih =>
    intro g s hf hg
    cases s with
    | nil => cases g <;> rfl
    | cons x xs =>
      cases g with
      | zero => exact absurd hg (by simp)
      | succ g =>
        simp only [substF]
        cases h : m (x :: xs) with
        | some crt =>
          obtain ⟨c, r, t⟩ := crt
          have hlen : t.length < xs.length + 1 := by
            have h0 := hm _ _ _ _ h
            simpa using h0
          simp only [List.length_cons] at hf hg
          show r ++ substF m f t = r ++ substF m g t
          rw [ih g t (by omega) (by omega)]
        | none =>
          simp only [List.length_cons] at hf hg
          show x :: substF m f xs = x :: substF m g xs
          rw [ih g xs (by omega) (by omega)]

theorem subst_cons_some {m : Matcher} (hm : Consuming m) {x : Char}
    {xs c r t : List Char} (h : m (x :: xs) = some (c, r, t)) :
    subst m (x :: xs) = r ++ subst m t := by
  have hlen : t.length ≤ xs.length := by
    have h0 := hm _ _ _ _ h
    simp only [List.length_cons] at h0
    omega
  simp only [subst, List.length_cons, substF, h]
  show r ++ substF m xs.length t = r ++ substF m t.length t
  rw [substF_congr hm xs.length t.length t hlen (Nat.le_refl _)]

theorem subst_cons_none {m : Matcher} {x : Char} {xs : List Char}
    (h : m (x :: xs) = none) :
    subst m (x :: xs) = x :: subst m xs := by
  simp only [subst, List.length_cons, substF, h]

theorem drop_append_len {a : List Char} (t : List Char) (i : Nat) :
    (a ++ t).drop (a.length + i) = t.drop i := by
  induction a with
  | nil => simp
  | cons c cs ih => simpa [Nat.succ_add] using ih

theorem clean_nil {m : Matcher} (hm : MOk m) : Clean m [] := by
  intro i
  simpa using hm.nilNone

theorem clean_tail {m : Matcher} {x : Char} {xs : List Char}
    (h : Clean m (x :: xs)) : Clean m xs := fun i => h (i + 1)

theorem clean_suffix {m : Matcher} {s a t : List Char} (h : Clean m s)
    (hs : s = a ++ t) : Clean m t := by
  intro i
  have h1 := h (a.length + i)
  rwa [hs, drop_append_len] at h1

theorem repl_clean_at {m2 : Matcher} (hm2 : MOk m2) (hb : Blocked m2)
    {r : List Char} (hr : ReplGood r) :
    ∀ i Z, i < r.length → m2 (r.drop i ++ Z) = none := by
  intro i Z hi
  obtain ⟨hstart, hnobrace⟩ := hr
  cases i with
  | zero =>
    rcases hstart with ⟨u, hu⟩ | ⟨u, hu⟩
    · subst hu
      rw [show ('{' :: thisStr ++ u).drop 0 ++ Z = '{' :: thisStr ++ (u ++ Z) from by simp]
      exact (hb (u ++ Z)).1
    · subst hu
      rw [show ('{' :: '!' :: thisStr ++ u).drop 0 ++ Z = '{' :: '!' :: thisStr ++ (u ++ Z)
        from by simp]
      exact (hb (u ++ Z)).2
  | succ j =>
    cases hd : r.drop (j + 1) with
    | nil =>
      have hlen : r.length ≤ j + 1 := List.drop_eq_nil_iff.mp hd
      omega
    | cons y ys =>
      have hymem : y ∈ r.drop 1 := by
        have hdd : r.drop (j + 1) = (r.drop 1).drop j := by
          rw [List.drop_drop, Nat.add_comm]
        have hyj : y ∈ (r.drop 1).drop j := by
          rw [← hdd, hd]; exact List.mem_cons_self y ys
        exact List.drop_subset _ _ hyj
      have hy : ¬ y = '{' := fun he => hnobrace (he ▸ hymem)
      exact hm2.headNone y (ys ++ Z) hy

theorem subst_structure {m : Matcher} (hm : MOk m) :
    ∀ s : List Char, (subst m s = s ∧ Clean m s) ∨
      ∃ p c r t, s = p ++ (c ++ t) ∧ subst m s = p ++ (r ++ subst m t) ∧
        m (c ++ t) = some (c, r, t) ∧ ∀ i, i < p.length → m (s.drop i) = none := by
  intro s
  induction s with
  | nil => exact Or.inl ⟨rfl, clean_nil hm⟩
  | cons x xs ih =>
    cases h : m (x :: xs) with
    | some crt =>
      obtain ⟨c, r, t⟩ := crt
      right
      have hs : x :: xs = c ++ t := hm.inv _ _ _ _ h
      refine ⟨[], c, r, t, by simpa using hs, ?_, by rw [← hs]; exact h, ?_⟩
      · rw [subst_cons_some hm.consuming h]
        simp
      · intro i hi
        simp at hi
    | none =>
      rcases ih with ⟨hid, hcl⟩ | ⟨p, c, r, t, hxs, hsub, hmct, hnone⟩
      · left
        refine ⟨by rw [subst_cons_none h, hid], ?_⟩
        intro i
        cases i with
        | zero => exact h
        | succ i => exact hcl i
      · right
        refine ⟨x :: p, c, r, t, by rw [List.cons_append, ← hxs], ?_, hmct, ?_⟩
        · rw [subst_cons_none h, hsub, List.cons_append]
        · intro i hi
          cases i with
          | zero => exact h
          | succ i =>
            simp only [List.length_cons] at hi
            have h0 := hnone i (by omega)
            rw [show (x :: xs).drop (i + 1) = xs.drop i from rfl]
            exact h0

theorem head_preserved {m m2 : Matcher} (hm : MOk m) (hm2 : MOk m2)
    (x : Char) (xs : List Char) (h : m2 (x :: xs) = none) :
    m2 (x :: subst m xs) = none := by
  rcases subst_structure hm xs with ⟨hid, _⟩ | ⟨p, c1, r1, t, hxs, hsub, hmct, _⟩
  · rw [hid]; exact h
  · rw [hsub]
    cases hsome : m2 (x :: (p ++ (r1 ++ subst m t))) with
    | none => rfl
    | some crt =>
      exfalso
      obtain ⟨c, r2, t2⟩ := crt
      have hinv : x :: (p ++ (r1 ++ subst m t)) = c ++ t2 := hm2.inv _ _ _ _ hsome
      obtain ⟨u, hcu, hcnb⟩ := hm2.brace _ _ _ _ hsome
      obtain ⟨hrg1, _⟩ := hm.repl _ _ _ _ hmct
      have hr1head : ∃ v, r1 = '{' :: v := by
        rcases hrg1 with ⟨u1, hu1⟩ | ⟨u1, hu1⟩
        · exact ⟨thisStr ++ u1, hu1⟩
        · exact ⟨'!' :: thisStr ++ u1, hu1⟩
      obtain ⟨v, hv⟩ := hr1head
      have hinv2 : (x :: p) ++ (r1 ++ subst m t) = c ++ t2 := by
        simpa using hinv
      have hgood : ∃ w, x :: p = c ++ w := by
        rcases List.append_eq_append_iff.mp hinv2 with ⟨w, hw1, hw2⟩ | ⟨w, hw1, hw2⟩
        · -- c = (x :: p) ++ w and r1 ++ subst m t = w ++ t2
          cases w with
          | nil => exact ⟨[], by simpa using hw1.symm⟩
          | cons w0 ws =>
            exfalso
            have hw0 : w0 = '{' := by
              rw [hv] at hw2
              have : '{' :: (v ++ subst m t) = w0 :: (ws ++ t2) := by simpa using hw2
              injection this with h1 _
              exact h1.symm
            subst hw0
            have hceq : '{' :: u = x :: (p ++ ('{' :: ws)) := by
              rw [← hcu, hw1]; simp
            injection hceq with hx1 hu1
            apply hcnb
            rw [hu1]
            exact List.mem_append_right _ (List.mem_cons_self _ _)
        · exact ⟨w, hw1⟩
      obtain ⟨w, hw⟩ := hgood
      have hx2 : x :: xs = c ++ (w ++ (c1 ++ t)) := by
        rw [hxs, ← List.cons_append, hw, List.append_assoc]
      have hext := hm2.extend c r2 t2 (by rw [← hinv2]; exact hsome) (w ++ (c1 ++ t))
      rw [← hx2, h] at hext
      simp at hext

theorem drop_append_ge {r Z : List Char} {i : Nat} (h : r.length ≤ i) :
    (r ++ Z).drop i = Z.drop (i - r.length) := by
  rw [List.drop_append_eq_append_drop]
  rw [List.drop_eq_nil_iff.mpr h, List.nil_append]

theorem drop_append_lt {r Z : List Char} {i : Nat} (h : i < r.length) :
    (r ++ Z).drop i = r.drop i ++ Z := by
  rw [List.drop_append_eq_append_drop]
  have h0 : i - r.length = 0 := by omega
  rw [h0, List.drop_zero]

theorem clean_subst_preserve {m m2 : Matcher} (hm : MOk m) (hm2 : MOk m2)
    (hb2 : Blocked m2) :
    ∀ n s, s.length ≤ n → Clean m2 s → Clean m2 (subst m s) := by
  intro n
  induction n with
  | zero =>
    intro s hlen hcl
    have hs : s = [] := List.length_eq_zero.mp (Nat.le_zero.mp hlen)
    subst hs
    exact hcl
  | succ n ih =>
    intro s hlen hcl
    cases s with
    | nil => exact hcl
    | cons x xs =>
      cases h : m (x :: xs) with
      | none =>
        rw [subst_cons_none h]
        intro i
        cases i with
        | zero => exact head_preserved hm hm2 x xs (hcl 0)
        | succ i =>
          have hclxs : Clean m2 (subst m xs) := by
            apply ih xs (by simp at hlen; omega) (clean_tail hcl)
          exact hclxs i
      | some crt =>
        obtain ⟨c, r, t⟩ := crt
        rw [subst_cons_some hm.consuming h]
        have hs : x :: xs = c ++ t := hm.inv _ _ _ _ h
        have hclt : Clean m2 t := clean_suffix hcl hs
        have hlt : t.length ≤ n := by
          have h0 := hm.consuming _ _ _ _ h
          simp only [List.length_cons] at h0 hlen
          omega
        have hiht : Clean m2 (subst m t) := ih t hlt hclt
        have hr : ReplGood r := hm.repl _ _ _ _ h
        intro i
        by_cases hir : i < r.length
        · rw [drop_append_lt hir]
          exact repl_clean_at hm2 hb2 hr i _ hir
        · rw [drop_append_ge (by omega)]
          exact hiht (i - r.length)

theorem clean_subst_self {m : Matcher} (hm : MOk m) (hb : Blocked m) :
    ∀ n s, s.length ≤ n → Clean m (subst m s) := by
  intro n
  induction n with
  | zero =>
    intro s hlen
    have hs : s = [] := List.length_eq_zero.mp (Nat.le_zero.mp hlen)
    subst hs
    exact clean_nil hm
  | succ n ih =>
    intro s hlen
    cases s with
    | nil => exact clean_nil hm
    | cons x xs =>
      cases h : m (x :: xs) with
      | none =>
        rw [subst_cons_none h]
        intro i
        cases i with
        | zero => exact head_preserved hm hm x xs h
        | succ i =>
          have hclxs : Clean m (subst m xs) :=
            ih xs (by simp at hlen; omega)
          exact hclxs i
      | some crt =>
        obtain ⟨c, r, t⟩ := crt
        rw [subst_cons_some hm.consuming h]
        have hlt : t.length ≤ n := by
          have h0 := hm.consuming _ _ _ _ h
          simp only [List.length_cons] at h0 hlen
          omega
        have hiht : Clean m (subst m t) := ih t hlt
        have hr : ReplGood r := hm.repl _ _ _ _ h
        intro i
        by_cases hir : i < r.length
        · rw [drop_append_lt hir]
          exact repl_clean_at hm hb hr i _ hir
        · rw [drop_append_ge (by omega)]
          exact hiht (i - r.length)

theorem subst_id {m : Matcher} :
    ∀ {s : List Char}, Clean m s → subst m s = s := by
  intro s
  induction s with
  | nil => intro _; rfl
  | cons x xs ih =>
    intro hcl
    rw [subst_cons_none (hcl 0), ih (clean_tail hcl)]

/-! ## Structural facts for the three special-idiom matchers -/

theorem replGood_rep1 : ReplGood rep1 :=
  ⟨Or.inl ⟨"pushDollarTag();\x7d".toList, by decide⟩, by decide⟩

theorem replGood_rep2 : ReplGood rep2 :=
  ⟨Or.inl ⟨"matchesDollarTag()\x7d?".toList, by decide⟩, by decide⟩

theorem replGood_rep3 : ReplGood rep3 :=
  ⟨Or.inl ⟨"popDollarTag();\x7d".toList, by decide⟩, by decide⟩

theorem m1_spec {s c r t : List Char} (h : m1 s = some (c, r, t)) :
    r = rep1 ∧ ∃ q, (q = [';', '}'] ∨ q = ['}']) ∧ c = '{' :: (lit1 ++ q) ∧
      s = c ++ t := by
  unfold m1 at h
  split at h
  next r0 =>
    split at h
    next t0 heq =>
      simp only [Option.some.injEq, Prod.mk.injEq] at h
      obtain ⟨h1, h2, h3⟩ := h
      refine ⟨h2.symm, [';', '}'], Or.inl rfl, h1.symm, ?_⟩
      rw [← h1, ← h3, stripLit_some heq]
      simp
    next t0 heq =>
      simp only [Option.some.injEq, Prod.mk.injEq] at h
      obtain ⟨h1, h2, h3⟩ := h
      refine ⟨h2.symm, ['}'], Or.inr rfl, h1.symm, ?_⟩
      rw [← h1, ← h3, stripLit_some heq]
      simp
    next => exact absurd h (by simp)
  next => exact absurd h (by simp)

theorem m1_headNone (x : Char) (xs : List Char) (hx : x ≠ '{') :
    m1 (x :: xs) = none := by
  unfold m1
  split
  all_goals first
    | rfl
    | (rename_i heq; injection heq with h1 h2; exact absurd h1 hx)

theorem m1_mok : MOk m1 := by
  refine ⟨?_, ?_, ?_, ?_, ?_, rfl, m1_headNone⟩
  · intro s c r t h
    obtain ⟨_, q, _, _, hs⟩ := m1_spec h
    exact hs
  · intro s c r t h
    obtain ⟨_, q, _, hc, _⟩ := m1_spec h
    rw [hc]
    simp
  · intro s c r t h
    obtain ⟨_, q, hq, hc, _⟩ := m1_spec h
    refine ⟨lit1 ++ q, hc, ?_⟩
    rcases hq with rfl | rfl <;> decide
  · intro s c r t h
    rw [(m1_spec h).1]
    exact replGood_rep1
  · intro c r t h u
    obtain ⟨_, q, hq, hc, _⟩ := m1_spec h
    rcases hq with rfl | rfl
    · rw [show c ++ u = '{' :: (lit1 ++ (';' :: '}' :: u)) from by rw [hc]; simp]
      simp [m1, stripLit_append]
    · rw [show c ++ u = '{' :: (lit1 ++ ('}' :: u)) from by rw [hc]; simp]
      simp [m1, stripLit_append]

theorem m1_blocked : Blocked m1 := by
  intro k
  constructor
  · rfl
  · rfl

theorem m2_spec {s c r t : List Char} (h : m2 s = some (c, r, t)) :
    r = rep2 ∧ c = '{' :: (lit2 ++ ['}', '?']) ∧ s = c ++ t := by
  unfold m2 at h
  split at h
  next r0 =>
    split at h
    next t0 heq =>
      simp only [Option.some.injEq, Prod.mk.injEq] at h
      obtain ⟨h1, h2, h3⟩ := h
      refine ⟨h2.symm, h1.symm, ?_⟩
      rw [← h1, ← h3, stripLit_some heq]
      simp
    next => exact absurd h (by simp)
  next => exact absurd h (by simp)

theorem m2_headNone (x : Char) (xs : List Char) (hx : x ≠ '{') :
    m2 (x :: xs) = none := by
  unfold m2
  split
  all_goals first
    | rfl
    | (rename_i heq; injection heq with h1 h2; exact absurd h1 hx)

theorem m2_mok : MOk m2 := by
  refine ⟨?_, ?_, ?_, ?_, ?_, rfl, m2_headNone⟩
  · intro s c r t h
    exact (m2_spec h).2.2
  · intro s c r t h
    rw [(m2_spec h).2.1]
    simp
  · intro s c r t h
    exact ⟨lit2 ++ ['}', '?'], (m2_spec h).2.1, by decide⟩
  · intro s c r t h
    rw [(m2_spec h).1]
    exact replGood_rep2
  · intro c r t h u
    obtain ⟨_, hc, _⟩ := m2_spec h
    rw [show c ++ u = '{' :: (lit2 ++ ('}' :: '?' :: u)) from by rw [hc]; simp]
    simp [m2, stripLit_append]

theorem m2_blocked : Blocked m2 := by
  intro k
  exact ⟨rfl, rfl⟩

theorem m3_spec {s c r t : List Char} (h : m3 s = some (c, r, t)) :
    r = rep3 ∧ ∃ q, (q = [';', '}'] ∨ q = ['}']) ∧ c = '{' :: (lit3 ++ q) ∧
      s = c ++ t := by
  unfold m3 at h
  split at h
  next r0 =>
    split at h
    next t0 heq =>
      simp only [Option.some.injEq, Prod.mk.injEq] at h
      obtain ⟨h1, h2, h3⟩ := h
      refine ⟨h2.symm, [';', '}'], Or.inl rfl, h1.symm, ?_⟩
      rw [← h1, ← h3, stripLit_some heq]
      simp
    next t0 heq =>
      simp only [Option.some.injEq, Prod.mk.injEq] at h
      obtain ⟨h1, h2, h3⟩ := h
      refine ⟨h2.symm, ['}'], Or.inr rfl, h1.symm, ?_⟩
      rw [← h1, ← h3, stripLit_some heq]
      simp
    next => exact absurd h (by simp)
  next => exact absurd h (by simp)

theorem m3_headNone (x : Char) (xs : List Char) (hx : x ≠ '{') :
    m3 (x :: xs) = none := by
  unfold m3
  split
  all_goals first
    | rfl
    | (rename_i heq; injection heq with h1 h2; exact absurd h1 hx)

theorem m3_mok : MOk m3 := by
  refine ⟨?_, ?_, ?_, ?_, ?_, rfl, m3_headNone⟩
  · intro s c r t h
    obtain ⟨_, q, _, _, hs⟩ := m3_spec h
    exact hs
  · intro s c r t h
    obtain ⟨_, q, _, hc, _⟩ := m3_spec h
    rw [hc]
    simp
  · intro s c r t h
    obtain ⟨_, q, hq, hc, _⟩ := m3_spec h
    refine ⟨lit3 ++ q, hc, ?_⟩
    rcases hq with rfl | rfl <;> decide
  · intro s c r t h
    rw [(m3_spec h).1]
    exact replGood_rep3
  · intro c r t h u
    obtain ⟨_, q, hq, hc, _⟩ := m3_spec h
    rcases hq with rfl | rfl
    · rw [show c ++ u = '{' :: (lit3 ++ (';' :: '}' :: u)) from by rw [hc]; simp]
      simp [m3, stripLit_append]
    · rw [show c ++ u = '{' :: (lit3 ++ ('}' :: u)) from by rw [hc]; simp]
      simp [m3, stripLit_append]

theorem m3_blocked : Blocked m3 := by
  intro k
  exact ⟨rfl, rfl⟩

/-! ## Structural facts for the generic predicate-call matcher -/

theorem m4core_spec {neg r1 c r t : List Char}
    (h : m4core neg r1 = some (c, r, t)) :
    ∃ nm q, nm ≠ [] ∧ (∀ ch ∈ nm, isWordChar ch = true) ∧
      (q = ['(', ')', '}', '?'] ∨ q = ['(', ')', '}']) ∧
      c = '{' :: (neg ++ (nm ++ q)) ∧
      r = '{' :: (neg ++ (thisStr ++ (nm ++ q))) ∧
      r1 = nm ++ (q ++ t) := by
  unfold m4core at h
  split at h
  next heq1 => exact absurd h (by simp)
  next n ns heq1 =>
    have hword : ∀ ch ∈ n :: ns, isWordChar ch = true := by
      intro ch hch
      apply List.mem_takeWhile_imp (p := isWordChar) (l := r1)
      rw [heq1]
      exact hch
    have hr1 : r1 = (n :: ns) ++ r1.dropWhile isWordChar := by
      conv_lhs => rw [← List.takeWhile_append_dropWhile (p := isWordChar) (l := r1)]
      rw [heq1]
    split at h
    next t0 heq2 =>
      simp only [Option.some.injEq, Prod.mk.injEq] at h
      obtain ⟨h1, h2, h3⟩ := h
      refine ⟨n :: ns, ['(', ')', '}', '?'], by simp, hword, Or.inl rfl, ?_, ?_, ?_⟩
      · rw [← h1]; simp [List.append_assoc]
      · rw [← h2]; simp [List.append_assoc]
      · rw [hr1, heq2, ← h3]; simp
    next t0 heq2 =>
      simp only [Option.some.injEq, Prod.mk.injEq] at h
      obtain ⟨h1, h2, h3⟩ := h
      refine ⟨n :: ns, ['(', ')', '}'], by simp, hword, Or.inr rfl, ?_, ?_, ?_⟩
      · rw [← h1]; simp [List.append_assoc]
      · rw [← h2]; simp [List.append_assoc]
      · rw [hr1, heq2, ← h3]; simp
    next => exact absurd h (by simp)

theorem m4core_isSome (neg nm q u : List Char) (hnm : nm ≠ [])
    (hword : ∀ ch ∈ nm, isWordChar ch = true)
    (hq : q = ['(', ')', '}', '?'] ∨ q = ['(', ')', '}']) :
    (m4core neg (nm ++ (q ++ u))).isSome = true := by
  obtain ⟨n0, ns0, rfl⟩ : ∃ a b, nm = a :: b := by
    cases nm with
    | nil => exact absurd rfl hnm
    | cons a b => exact ⟨a, b, rfl⟩
  rcases hq with rfl | rfl
  · have htake : ((n0 :: ns0) ++ ('(' :: ')' :: '}' :: '?' :: u)).takeWhile isWordChar
        = n0 :: ns0 := takeWhile_append_stop _ hword (by decide)
    have hdrop : ((n0 :: ns0) ++ ('(' :: ')' :: '}' :: '?' :: u)).dropWhile isWordChar
        = '(' :: ')' :: '}' :: '?' :: u := dropWhile_append_stop _ hword (by decide)
    simp only [m4core, List.append_assoc]
    simp only [List.cons_append, List.nil_append] at htake hdrop ⊢
    rw [htake, hdrop]
    rfl
  · have htake : ((n0 :: ns0) ++ ('(' :: ')' :: '}' :: u)).takeWhile isWordChar
        = n0 :: ns0 := takeWhile_append_stop _ hword (by decide)
    have hdrop : ((n0 :: ns0) ++ ('(' :: ')' :: '}' :: u)).dropWhile isWordChar
        = '(' :: ')' :: '}' :: u := dropWhile_append_stop _ hword (by decide)
    simp only [m4core, List.append_assoc]
    simp only [List.cons_append, List.nil_append] at htake hdrop ⊢
    rw [htake, hdrop]
    cases u with
    | nil => rfl
    | cons u0 us =>
      by_cases hu : u0 = '?'
      · subst hu; rfl
      · split
        next x heq => exact absurd heq (by simp)
        next x n1 ns1 heq =>
          split
          all_goals first
            | rfl
            | (rename_i hne1 hne2
               exact absurd rfl (hne2 (u0 :: us)))

theorem m4_spec {s c r t : List Char} (h : m4 s = some (c, r, t)) :
    ∃ neg nm q, (neg = [] ∨ neg = ['!']) ∧ nm ≠ [] ∧
      (∀ ch ∈ nm, isWordChar ch = true) ∧
      (q = ['(', ')', '}', '?'] ∨ q = ['(', ')', '}']) ∧
      c = '{' :: (neg ++ (nm ++ q)) ∧
      r = '{' :: (neg ++ (thisStr ++ (nm ++ q))) ∧ s = c ++ t := by
  unfold m4 at h
  split at h
  next r1 =>
    obtain ⟨nm, q, hnm, hword, hq, hc, hr, hr1⟩ := m4core_spec h
    refine ⟨['!'], nm, q, Or.inr rfl, hnm, hword, hq, hc, hr, ?_⟩
    rw [hc, hr1]
    simp [List.append_assoc]
  next r1 =>
    obtain ⟨nm, q, hnm, hword, hq, hc, hr, hr1⟩ := m4core_spec h
    refine ⟨[], nm, q, Or.inl rfl, hnm, hword, hq, hc, hr, ?_⟩
    rw [hc, hr1]
    simp [List.append_assoc]
  next => exact absurd h (by simp)

theorem m4_headNone (x : Char) (xs : List Char) (hx : x ≠ '{') :
    m4 (x :: xs) = none := by
  unfold m4
  split
  all_goals first
    | rfl
    | (rename_i heq; injection heq with h1 h2; exact absurd h1 hx)

theorem notWord_bang : isWordChar '!' = false := by decide

theorem m4_mok : MOk m4 := by
  refine ⟨?_, ?_, ?_, ?_, ?_, rfl, m4_headNone⟩
  · intro s c r t h
    obtain ⟨neg, nm, q, _, _, _, _, _, _, hs⟩ := m4_spec h
    exact hs
  · intro s c r t h
    obtain ⟨neg, nm, q, _, _, _, _, hc, _, _⟩ := m4_spec h
    rw [hc]
    simp
  · intro s c r t h
    obtain ⟨neg, nm, q, hneg, hnm, hword, hq, hc, _, _⟩ := m4_spec h
    refine ⟨neg ++ (nm ++ q), hc, ?_⟩
    intro hmem
    rcases List.mem_append.mp hmem with hm1 | hm2
    · rcases hneg with rfl | rfl
      · simp at hm1
      · simp at hm1
    · rcases List.mem_append.mp hm2 with hm3 | hm4
      · exact absurd (hword '{' hm3) (by decide)
      · rcases hq with rfl | rfl <;> exact absurd hm4 (by decide)
  · intro s c r t h
    obtain ⟨neg, nm, q, hneg, hnm, hword, hq, _, hr, _⟩ := m4_spec h
    constructor
    · rcases hneg with rfl | rfl
      · exact Or.inl ⟨nm ++ q, by rw [hr]; simp⟩
      · exact Or.inr ⟨nm ++ q, by rw [hr]; simp⟩
    · rw [hr]
      intro hmem
      rw [show ('{' :: (neg ++ (thisStr ++ (nm ++ q)))).drop 1
          = neg ++ (thisStr ++ (nm ++ q)) from rfl] at hmem
      rcases List.mem_append.mp hmem with hm1 | hm2
      · rcases hneg with rfl | rfl
        · simp at hm1
        · simp at hm1
      · rcases List.mem_append.mp hm2 with hm3 | hm4
        · exact absurd hm3 (by decide)
        · rcases List.mem_append.mp hm4 with hm5 | hm6
          · exact absurd (hword '{' hm5) (by decide)
          · rcases hq with rfl | rfl <;> exact absurd hm6 (by decide)
  · intro c r t h u
    obtain ⟨neg, nm, q, hneg, hnm, hword, hq, hc, _, _⟩ := m4_spec h
    have hnmc : ∃ a b, nm = a :: b := by
      cases nm with
      | nil => exact absurd rfl hnm
      | cons a b => exact ⟨a, b, rfl⟩
    obtain ⟨n0, ns0, rfl⟩ := hnmc
    rcases hneg with rfl | rfl
    · have hcu : c ++ u = '{' :: (n0 :: (ns0 ++ (q ++ u))) := by
        rw [hc]; simp
      rw [hcu]
      have hn0 : ¬ n0 = '!' := by
        intro he
        have hw := hword n0 (by simp)
        rw [he] at hw
        exact absurd hw (by decide)
      unfold m4
      split
      all_goals first
        | (rename_i heq
           injection heq with ha hb
           injection hb with hb1 hb2
           exact absurd hb1 hn0)
        | (rename_i hne heq
           injection heq with ha hb
           rw [← hb]
           exact m4core_isSome [] (n0 :: ns0) q u (by simp) hword hq)
        | (rename_i hne1 hne2
           exact absurd rfl (hne2 (n0 :: (ns0 ++ (q ++ u)))))
    · have hcu : c ++ u = '{' :: ('!' :: ((n0 :: ns0) ++ (q ++ u))) := by
        rw [hc]; simp
      rw [hcu]
      unfold m4
      split
      all_goals first
        | (rename_i heq
           injection heq with ha hb
           injection hb with hb1 hb2
           rw [← hb2]
           exact m4core_isSome ['!'] (n0 :: ns0) q u (by simp) hword hq)
        | (rename_i hne heq
           injection heq with ha hb
           exact (hne ((n0 :: ns0) ++ (q ++ u)) hb.symm).elim)
        | (rename_i hne1 hne2
           exact absurd rfl (hne1 ((n0 :: ns0) ++ (q ++ u))))

theorem m4_blocked : Blocked m4 := fun _ => ⟨rfl, rfl⟩

/-! ## Structural facts for the action-call and variable-access matchers -/

theorem m5_spec {s c r t : List Char} (h : m5 s = some (c, r, t)) :
    ∃ nm, nm ≠ [] ∧ (∀ ch ∈ nm, isWordChar ch = true) ∧
      c = '{' :: (nm ++ ['(', ')', ';', '}']) ∧
      r = '{' :: (thisStr ++ (nm ++ ['(', ')', ';', '}'])) ∧ s = c ++ t := by
  unfold m5 at h
  split at h
  next r1 =>
    split at h
    next heq1 => exact absurd h (by simp)
    next n ns heq1 =>
      have hword : ∀ ch ∈ n :: ns, isWordChar ch = true := by
        intro ch hch
        apply List.mem_takeWhile_imp (p := isWordChar) (l := r1)
        rw [heq1]
        exact hch
      have hr1 : r1 = (n :: ns) ++ r1.dropWhile isWordChar := by
        conv_lhs => rw [← List.takeWhile_append_dropWhile (p := isWordChar) (l := r1)]
        rw [heq1]
      split at h
      next t0 heq2 =>
        simp only [Option.some.injEq, Prod.mk.injEq] at h
        obtain ⟨h1, h2, h3⟩ := h
        refine ⟨n :: ns, by simp, hword, ?_, ?_, ?_⟩
        · rw [← h1]; simp [List.append_assoc]
        · rw [← h2]; simp [List.append_assoc]
        · rw [← h1, hr1, heq2, ← h3]; simp [List.append_assoc]
      next => exact absurd h (by simp)
  next => exact absurd h (by simp)

theorem m5_headNone (x : Char) (xs : List Char) (hx : x ≠ '{') :
    m5 (x :: xs) = none := by
  unfold m5
  split
  all_goals first
    | rfl
    | (rename_i heq; injection heq with h1 h2; exact absurd h1 hx)

theorem m5_isSome (nm u : List Char) (n0 : Char) (ns0 : List Char)
    (hnm : nm = n0 :: ns0) (hword : ∀ ch ∈ nm, isWordChar ch = true) :
    (m5 ('{' :: (nm ++ ('(' :: ')' :: ';' :: '}' :: u)))).isSome = true := by
  subst hnm
  have htake : ((n0 :: ns0) ++ ('(' :: ')' :: ';' :: '}' :: u)).takeWhile isWordChar
      = n0 :: ns0 := takeWhile_append_stop _ hword (by decide)
  have hdrop : ((n0 :: ns0) ++ ('(' :: ')' :: ';' :: '}' :: u)).dropWhile isWordChar
      = '(' :: ')' :: ';' :: '}' :: u := dropWhile_append_stop _ hword (by decide)
  simp only [m5]
  simp only [List.cons_append, List.nil_append] at htake hdrop ⊢
  rw [htake, hdrop]
  rfl

theorem m5_mok : MOk m5 := by
  refine ⟨?_, ?_, ?_, ?_, ?_, rfl, m5_headNone⟩
  · intro s c r t h
    obtain ⟨nm, _, _, _, _, hs⟩ := m5_spec h
    exact hs
  · intro s c r t h
    obtain ⟨nm, _, _, hc, _, _⟩ := m5_spec h
    rw [hc]
    simp
  · intro s c r t h
    obtain ⟨nm, hnm, hword, hc, _, _⟩ := m5_spec h
    refine ⟨nm ++ ['(', ')', ';', '}'], hc, ?_⟩
    intro hmem
    rcases List.mem_append.mp hmem with hm1 | hm2
    · exact absurd (hword '{' hm1) (by decide)
    · exact absurd hm2 (by decide)
  · intro s c r t h
    obtain ⟨nm, hnm, hword, _, hr, _⟩ := m5_spec h
    constructor
    · exact Or.inl ⟨nm ++ ['(', ')', ';', '}'], by rw [hr]; simp⟩
    · rw [hr]
      intro hmem
      rw [show ('{' :: (thisStr ++ (nm ++ ['(', ')', ';', '}']))).drop 1
          = thisStr ++ (nm ++ ['(', ')', ';', '}']) from rfl] at hmem
      rcases List.mem_append.mp hmem with hm1 | hm2
      · exact absurd hm1 (by decide)
      · rcases List.mem_append.mp hm2 with hm3 | hm4
        · exact absurd (hword '{' hm3) (by decide)
        · exact absurd hm4 (by decide)
  · intro c r t h u
    obtain ⟨nm, hnm, hword, hc, _, _⟩ := m5_spec h
    obtain ⟨n0, ns0, hnm0⟩ : ∃ a b, nm = a :: b := by
      cases nm with
      | nil => exact absurd rfl hnm
      | cons a b => exact ⟨a, b, rfl⟩
    have hcu : c ++ u = '{' :: (nm ++ ('(' :: ')' :: ';' :: '}' :: u)) := by
      rw [hc]; simp [List.append_assoc]
    rw [hcu]
    exact m5_isSome nm u n0 ns0 hnm0 hword

theorem m5_blocked : Blocked m5 := fun _ => ⟨rfl, rfl⟩

theorem m6core_spec {neg r1 c r t : List Char}
    (h : m6core neg r1 = some (c, r, t)) :
    ∃ ch rest, ch.isAlpha = true ∧ (∀ d ∈ rest, isWordChar d = true) ∧
      c = '{' :: (neg ++ ((ch :: rest) ++ ['}', '?'])) ∧
      r = '{' :: (neg ++ (thisStr ++ ((ch :: rest) ++ ['}', '?']))) ∧
      r1 = (ch :: rest) ++ ('}' :: '?' :: t) := by
  unfold m6core at h
  split at h
  next c0 cs =>
    split at h
    next halpha =>
      split at h
      next t0 heq2 =>
        simp only [Option.some.injEq, Prod.mk.injEq] at h
        obtain ⟨h1, h2, h3⟩ := h
        have hword : ∀ d ∈ cs.takeWhile isWordChar, isWordChar d = true := by
          intro d hd
          exact List.mem_takeWhile_imp hd
        have hcs : cs = cs.takeWhile isWordChar ++ ('}' :: '?' :: t0) := by
          conv_lhs => rw [← List.takeWhile_append_dropWhile (p := isWordChar) (l := cs)]
          rw [heq2]
        refine ⟨c0, cs.takeWhile isWordChar, halpha, hword, ?_, ?_, ?_⟩
        · rw [← h1]; simp [List.append_assoc]
        · rw [← h2]; simp [List.append_assoc]
        · rw [h3] at hcs
          rw [show (c0 :: cs.takeWhile isWordChar) ++ ('}' :: '?' :: t)
              = c0 :: (cs.takeWhile isWordChar ++ ('}' :: '?' :: t)) from rfl]
          rw [← hcs]
      next => exact absurd h (by simp)
    next => exact absurd h (by simp)
  next => exact absurd h (by simp)

theorem m6core_isSome (neg : List Char) (ch : Char) (rest u : List Char)
    (hch : ch.isAlpha = true) (hrest : ∀ d ∈ rest, isWordChar d = true) :
    (m6core neg ((ch :: rest) ++ ('}' :: '?' :: u))).isSome = true := by
  have hdrop : (rest ++ ('}' :: '?' :: u)).dropWhile isWordChar = '}' :: '?' :: u :=
    dropWhile_append_stop _ hrest (by decide)
  simp only [m6core, List.cons_append, hch, if_true]
  rw [hdrop]
  rfl

theorem m6_spec {s c r t : List Char} (h : m6 s = some (c, r, t)) :
    ∃ neg ch rest, (neg = [] ∨ neg = ['!']) ∧ ch.isAlpha = true ∧
      (∀ d ∈ rest, isWordChar d = true) ∧
      c = '{' :: (neg ++ ((ch :: rest) ++ ['}', '?'])) ∧
      r = '{' :: (neg ++ (thisStr ++ ((ch :: rest) ++ ['}', '?']))) ∧
      s = c ++ t := by
  unfold m6 at h
  split at h
  next r1 =>
    obtain ⟨ch, rest, hch, hrest, hc, hr, hr1⟩ := m6core_spec h
    refine ⟨['!'], ch, rest, Or.inr rfl, hch, hrest, hc, hr, ?_⟩
    rw [hc, hr1]
    simp [List.append_assoc]
  next r1 =>
    obtain ⟨ch, rest, hch, hrest, hc, hr, hr1⟩ := m6core_spec h
    refine ⟨[], ch, rest, Or.inl rfl, hch, hrest, hc, hr, ?_⟩
    rw [hc, hr1]
    simp [List.append_assoc]
  next => exact absurd h (by simp)

theorem m6_headNone (x : Char) (xs : List Char) (hx : x ≠ '{') :
    m6 (x :: xs) = none := by
  unfold m6
  split
  all_goals first
    | rfl
    | (rename_i heq; injection heq with h1 h2; exact absurd h1 hx)

theorem m6_mok : MOk m6 := by
  refine ⟨?_, ?_, ?_, ?_, ?_, rfl, m6_headNone⟩
  · intro s c r t h
    obtain ⟨neg, ch, rest, _, _, _, _, _, hs⟩ := m6_spec h
    exact hs
  · intro s c r t h
    obtain ⟨neg, ch, rest, _, _, _, hc, _, _⟩ := m6_spec h
    rw [hc]
    simp
  · intro s c r t h
    obtain ⟨neg, ch, rest, hneg, hch, hrest, hc, _, _⟩ := m6_spec h
    refine ⟨neg ++ ((ch :: rest) ++ ['}', '?']), hc, ?_⟩
    intro hmem
    rcases List.mem_append.mp hmem with hm1 | hm2
    · rcases hneg with rfl | rfl
      · simp at hm1
      · simp at hm1
    · rcases List.mem_append.mp hm2 with hm3 | hm4
      · rcases List.mem_cons.mp hm3 with hm5 | hm6
        · rw [← hm5] at hch
          exact absurd hch (by decide)
        · exact absurd (hrest '{' hm6) (by decide)
      · exact absurd hm4 (by decide)
  · intro s c r t h
    obtain ⟨neg, ch, rest, hneg, hch, hrest, _, hr, _⟩ := m6_spec h
    constructor
    · rcases hneg with rfl | rfl
      · exact Or.inl ⟨(ch :: rest) ++ ['}', '?'], by rw [hr]; simp⟩
      · exact Or.inr ⟨(ch :: rest) ++ ['}', '?'], by rw [hr]; simp⟩
    · rw [hr]
      intro hmem
      rw [show ('{' :: (neg ++ (thisStr ++ ((ch :: rest) ++ ['}', '?'])))).drop 1
          = neg ++ (thisStr ++ ((ch :: rest) ++ ['}', '?'])) from rfl] at hmem
      rcases List.mem_append.mp hmem with hm1 | hm2
      · rcases hneg with rfl | rfl
        · simp at hm1
        · simp at hm1
      · rcases List.mem_append.mp hm2 with hm3 | hm4
        · exact absurd hm3 (by decide)
        · rcases List.mem_append.mp hm4 with hm5 | hm6
          · rcases List.mem_cons.mp hm5 with hm7 | hm8
            · rw [← hm7] at hch
              exact absurd hch (by decide)
            · exact absurd (hrest '{' hm8) (by decide)
          · exact absurd hm6 (by decide)
  · intro c r t h u
    obtain ⟨neg, ch, rest, hneg, hch, hrest, hc, _, _⟩ := m6_spec h
    rcases hneg with rfl | rfl
    · have hcu : c ++ u = '{' :: (ch :: (rest ++ ('}' :: '?' :: u))) := by
        rw [hc]; simp
      rw [hcu]
      have hch2 : ¬ ch = '!' := by
        intro he
        rw [he] at hch
        exact absurd hch (by decide)
      unfold m6
      split
      all_goals first
        | (rename_i heq
           injection heq with ha hb
           injection hb with hb1 hb2
           exact absurd hb1 hch2)
        | (rename_i hne heq
           injection heq with ha hb
           rw [← hb]
           rw [show ch :: (rest ++ ('}' :: '?' :: u)) = (ch :: rest) ++ ('}' :: '?' :: u)
             from rfl]
           exact m6core_isSome [] ch rest u hch hrest)
        | (rename_i hne1 hne2
           exact absurd rfl (hne2 (ch :: (rest ++ ('}' :: '?' :: u)))))
    · have hcu : c ++ u = '{' :: ('!' :: ((ch :: rest) ++ ('}' :: '?' :: u))) := by
        rw [hc]; simp
      rw [hcu]
      unfold m6
      split
      all_goals first
        | (rename_i heq
           injection heq with ha hb
           injection hb with hb1 hb2
           rw [← hb2]
           exact m6core_isSome ['!'] ch rest u hch hrest)
        | (rename_i hne heq
           injection heq with ha hb
           exact (hne ((ch :: rest) ++ ('}' :: '?' :: u)) hb.symm).elim)
        | (rename_i hne1 hne2
           exact absurd rfl (hne1 ((ch :: rest) ++ ('}' :: '?' :: u))))

theorem m6_blocked : Blocked m6 := fun _ => ⟨rfl, rfl⟩

/-! ## Idempotence of the Call Rewriter -/

theorem clean_pres {m mq : Matcher} (hm : MOk m) (hmq : MOk mq)
    (hbq : Blocked mq) {s : List Char} (h : Clean mq s) :
    Clean mq (subst m s) :=
  clean_subst_preserve hm hmq hbq s.length s (le_refl _) h

theorem clean_self {m : Matcher} (hm : MOk m) (hb : Blocked m) (s : List Char) :
    Clean m (subst m s) :=
  clean_subst_self hm hb s.length s (le_refl _)

theorem transformList_clean (s : List Char) :
    Clean m1 (transformList s) ∧ Clean m2 (transformList s) ∧
    Clean m3 (transformList s) ∧ Clean m4 (transformList s) ∧
    Clean m5 (transformList s) ∧ Clean m6 (transformList s) := by
  unfold transformList
  refine ⟨?_, ?_, ?_, ?_, ?_, ?_⟩
  · exact clean_pres m6_mok m1_mok m1_blocked (clean_pres m5_mok m1_mok m1_blocked
      (clean_pres m4_mok m1_mok m1_blocked (clean_pres m3_mok m1_mok m1_blocked
        (clean_pres m2_mok m1_mok m1_blocked (clean_self m1_mok m1_blocked s)))))
  · exact clean_pres m6_mok m2_mok m2_blocked (clean_pres m5_mok m2_mok m2_blocked
      (clean_pres m4_mok m2_mok m2_blocked (clean_pres m3_mok m2_mok m2_blocked
        (clean_self m2_mok m2_blocked _))))
  · exact clean_pres m6_mok m3_mok m3_blocked (clean_pres m5_mok m3_mok m3_blocked
      (clean_pres m4_mok m3_mok m3_blocked (clean_self m3_mok m3_blocked _)))
  · exact clean_pres m6_mok m4_mok m4_blocked (clean_pres m5_mok m4_mok m4_blocked
      (clean_self m4_mok m4_blocked _))
  · exact clean_pres m6_mok m5_mok m5_blocked (clean_self m5_mok m5_blocked _)
  · exact clean_self m6_mok m6_blocked _

theorem transformList_idem (s : List Char) :
    transformList (transformList s) = transformList s := by
  obtain ⟨h1, h2, h3, h4, h5, h6⟩ := transformList_clean s
  show subst m6 (subst m5 (subst m4 (subst m3 (subst m2 (subst m1
    (transformList s)))))) = transformList s
  rw [subst_id h1, subst_id h2, subst_id h3, subst_id h4, subst_id h5,
    subst_id h6]

theorem eq_none_of_isSome_false {o : Option (List Char × List Char × List Char)}
    (h : o.isSome = false) : o = none := by
  cases o with
  | none => rfl
  | some v => simp at h

theorem clean_of_not_matches :
    ∀ {l : List Char}, matchesSomewhere l = false →
      Clean m1 l ∧ Clean m2 l ∧ Clean m3 l ∧ Clean m4 l ∧ Clean m5 l ∧
        Clean m6 l := by
  intro l
  induction l with
  | nil =>
    intro h
    simp only [matchesSomewhere, Bool.or_eq_false_iff] at h
    obtain ⟨⟨⟨⟨⟨g1, g2⟩, g3⟩, g4⟩, g5⟩, g6⟩ := h
    refine ⟨?_, ?_, ?_, ?_, ?_, ?_⟩ <;>
      · intro i
        rw [List.drop_nil]
        first
          | exact eq_none_of_isSome_false g1
          | exact eq_none_of_isSome_false g2
          | exact eq_none_of_isSome_false g3
          | exact eq_none_of_isSome_false g4
          | exact eq_none_of_isSome_false g5
          | exact eq_none_of_isSome_false g6
  | cons c cs ih =>
    intro h
    simp only [matchesSomewhere, Bool.or_eq_false_iff] at h
    obtain ⟨⟨⟨⟨⟨⟨g1, g2⟩, g3⟩, g4⟩, g5⟩, g6⟩, hrest⟩ := h
    obtain ⟨i1, i2, i3, i4, i5, i6⟩ := ih hrest
    refine ⟨?_, ?_, ?_, ?_, ?_, ?_⟩ <;>
      · intro i
        cases i with
        | zero =>
          rw [List.drop_zero]
          first
            | exact eq_none_of_isSome_false g1
            | exact eq_none_of_isSome_false g2
            | exact eq_none_of_isSome_false g3
            | exact eq_none_of_isSome_false g4
            | exact eq_none_of_isSome_false g5
            | exact eq_none_of_isSome_false g6
        | succ i =>
          rw [show (c :: cs).drop (i + 1) = cs.drop i from rfl]
          first
            | exact i1 i
            | exact i2 i
            | exact i3 i
            | exact i4 i
            | exact i5 i
            | exact i6 i

theorem transform_id_of_no_match {l : List Char}
    (h : matchesSomewhere l = false) : transformList l = l := by
  obtain ⟨h1, h2, h3, h4, h5, h6⟩ := clean_of_not_matches h
  unfold transformList
  rw [subst_id h1, subst_id h2, subst_id h3, subst_id h4, subst_id h5,
    subst_id h6]

/-! ## Claim C9: the Call Rewriter is idempotent -/

/-- C9: `transform_predicates_for_js` is idempotent: applying it twice gives
the same string as applying it once.  Every replacement any of the six rewrite
rules emits begins with `{this.` or `{!this.` and contains no further opening
brace, so no rule can match at or inside a replacement on a second pass, and
the untouched text between matches is unchanged by definition. -/
theorem c9_transform_idempotent (s : String) :
    transform_predicates_for_js (transform_predicates_for_js s)
      = transform_predicates_for_js s := by
  unfold transform_predicates_for_js
  rw [toList_asString, transformList_idem]

/-! ## Claim C1: what the Call Rewriter leaves unchanged -/

/-- C1 counterexample: the fragment `{foo()}` — a bare zero-argument call
followed by neither `?` nor preceded by `;` before the closing brace, hence
none of the four spec shapes — is nevertheless rewritten to `{this.foo()}`:
the generic call rule's trailing `(\?)?` group is optional, so the rewrite
fires without the `?`. -/
theorem c1_counterexample_bare_call :
    transform_predicates_for_js "\x7bfoo()\x7d" = "\x7bthis.foo()\x7d" ∧
    "\x7bfoo()\x7d" ≠ "\x7bthis.foo()\x7d" := by
  constructor
  · decide
  · decide

/-- C1 (amended): text at which none of the six rewrite patterns matches at
any position is returned character-for-character unchanged; but the pattern
set is wider than the four spec shapes: a bare `{name()}` with no trailing
`?` is still rewritten, shown here on `{foo()}`. -/
theorem c1_unmatched_text_unchanged :
    (∀ s : String, matchesSomewhere s.toList = false →
        transform_predicates_for_js s = s) ∧
    transform_predicates_for_js "\x7bfoo()\x7d" = "\x7bthis.foo()\x7d" := by
  constructor
  · intro s hs
    unfold transform_predicates_for_js
    rw [transform_id_of_no_match hs]
    cases s with
    | mk data => rfl
  · decide

/-- Witness for C1: a concrete string with no pattern occurrence, on which
the amended theorem evaluates to the identity. -/
theorem c1_unmatched_text_unchanged_witness :
    matchesSomewhere ("rule : A B ;").toList = false ∧
    transform_predicates_for_js "rule : A B ;" = "rule : A B ;" :=
  ⟨by decide, c1_unmatched_text_unchanged.1 "rule : A B ;" (by decide)⟩

end BuildAntlrJs
